import Mathlib

/-!
SankGrap: a verification development.

Shallow embedding of `sankgrap.go`.

* Go strings are byte sequences: `Str := List Nat`, one entry (a value below
  256) per byte; nothing below relies on the bound.
* `regexp.MustCompile`, `regexp.QuoteMeta` and `(*Regexp).FindAllString` are
  library calls made by `main`, `extractFromHeaders` and `extractFromBody`.
  They are embedded here following the Go standard library: UTF-8 decoding
  (`unicode/utf8`), the shift/reduce parser of `regexp/syntax` restricted to the
  constructs listed at `parseLoop`, the leftmost-first (backtracking priority)
  matching discipline, and the `allMatches` loop of package `regexp`.
* The worker pool of `main` is a scheduler-driven transition system: a
  schedule names which goroutine takes its next atomic step.
-/

namespace SankGrap

/-- A Go `string`: a finite sequence of bytes, each a number below 256. -/
abbrev Str := List Nat

/-! ## unicode/utf8 -/

/-- The rune `utf8.RuneError` (U+FFFD). -/
def RuneError : Nat := 0xFFFD

/-- Go `utf8.EncodeRune`: the UTF-8 bytes of a rune; a surrogate or a value
above `utf8.MaxRune` is encoded as `RuneError`. -/
def encodeRune (r : Nat) : Str :=
  if r < 0x80 then [r]
  else if r < 0x800 then [0xC0 + r / 64, 0x80 + r % 64]
  else if 0x10FFFF < r ∨ (0xD800 ≤ r ∧ r ≤ 0xDFFF) then [0xEF, 0xBF, 0xBD]
  else if r < 0x10000 then [0xE0 + r / 4096, 0x80 + (r / 64) % 64, 0x80 + r % 64]
  else [0xF0 + r / 262144, 0x80 + (r / 4096) % 64, 0x80 + (r / 64) % 64, 0x80 + r % 64]

/-- The bytes of a string constant. -/
def str (s : String) : Str := s.toList.flatMap fun c => encodeRune c.toNat

/-- A Unicode scalar value: at most `utf8.MaxRune` and not a surrogate. -/
def validRune (r : Nat) : Bool :=
  decide (r ≤ 0x10FFFF) && !(decide (0xD800 ≤ r) && decide (r ≤ 0xDFFF))

/-- Accept range for the second byte of a multi-byte sequence led by `s0`
(`acceptRanges[first[s0] >> 4]` in Go). -/
def acceptLo (s0 : Nat) : Nat :=
  if s0 = 0xE0 then 0xA0 else if s0 = 0xF0 then 0x90 else 0x80

/-- Upper end of the accept range for the second byte. -/
def acceptHi (s0 : Nat) : Nat :=
  if s0 = 0xED then 0x9F else if s0 = 0xF4 then 0x8F else 0xBF

/-- Go `utf8.DecodeRuneInString`: the first rune of `s` and its width in bytes.
An invalid or truncated sequence gives `(RuneError, 1)`, the empty string
`(RuneError, 0)`. The masks `s0 & mask`, `s1 & 0x3F` are written `%`. -/
def decodeRune : Str → Nat × Nat
  | [] => (RuneError, 0)
  | s0 :: t =>
    if s0 < 0x80 then (s0, 1)
    else if s0 < 0xC2 then (RuneError, 1)
    else if s0 < 0xE0 then
      match t with
      | s1 :: _ =>
        if s1 < acceptLo s0 ∨ acceptHi s0 < s1 then (RuneError, 1)
        else ((s0 % 32) * 64 + s1 % 64, 2)
      | _ => (RuneError, 1)
    else if s0 < 0xF0 then
      match t with
      | s1 :: s2 :: _ =>
        if s1 < acceptLo s0 ∨ acceptHi s0 < s1 then (RuneError, 1)
        else if s2 < 0x80 ∨ 0xBF < s2 then (RuneError, 1)
        else ((s0 % 16) * 4096 + (s1 % 64) * 64 + s2 % 64, 3)
      | _ => (RuneError, 1)
    else if s0 < 0xF5 then
      match t with
      | s1 :: s2 :: s3 :: _ =>
        if s1 < acceptLo s0 ∨ acceptHi s0 < s1 then (RuneError, 1)
        else if s2 < 0x80 ∨ 0xBF < s2 then (RuneError, 1)
        else if s3 < 0x80 ∨ 0xBF < s3 then (RuneError, 1)
        else ((s0 % 8) * 262144 + (s1 % 64) * 4096 + (s2 % 64) * 64 + s3 % 64, 4)
      | _ => (RuneError, 1)
    else (RuneError, 1)

/-- Go `inputString.step` at the start of the remaining text `t`: the next rune
and its width, `none` at the end of the text (Go: `endOfText, 0`). -/
def step (t : Str) : Option (Nat × Nat) :=
  match t with
  | [] => none
  | c :: _ => if c < 0x80 then some (c, 1) else some (decodeRune t)

/-- Go `nextRune` of `regexp/syntax`: decode one rune of the pattern; invalid
UTF-8 is a parse error. On the empty text the answer is `none` as well: the
callers in Go test for it first and report a trailing backslash or a missing
bracket. -/
def nextRune (s : Str) : Option (Nat × Str) :=
  match decodeRune s with
  | (c, size) => if (c = RuneError ∧ size = 1) ∨ size = 0 then none else some (c, s.drop size)

/-! ## regexp.QuoteMeta -/

/-- The bytes QuoteMeta escapes: `\.+*?()|[]{}^$`. -/
def specialBytes : Str := [92, 46, 43, 42, 63, 40, 41, 124, 91, 93, 123, 125, 94, 36]

/-- Go `special`. -/
def special (b : Nat) : Bool := specialBytes.contains b

/-- Go `regexp.QuoteMeta`: every special byte gets a backslash in front. -/
def quoteMeta (s : Str) : Str :=
  s.flatMap fun b => if special b then [92, b] else [b]

/-! ## regexp/syntax: syntax tree and parser -/

/-- Syntax tree of a regular expression (`syntax.Regexp`), binary concatenation
and alternation. -/
inductive Regexp where
  | noMatch
  | emptyMatch
  | literal (r : Nat)
  | charClass (negated : Bool) (ranges : List (Nat × Nat))
  | anyCharNotNL
  | capture (sub : Regexp)
  | star (sub : Regexp)
  | plus (sub : Regexp)
  | quest (sub : Regexp)
  | concat (a b : Regexp)
  | alternate (a b : Regexp)
  deriving DecidableEq, Repr

/-- An entry of the parser stack: a parsed expression or one of the pseudo
operators `(` and `|`. The top of the stack is the head of the list. -/
inductive Item where
  | re (r : Regexp)
  | leftParen
  | verticalBar
  deriving DecidableEq, Repr

/-- Pop the expressions above the nearest pseudo operator; they are returned
in pattern order. -/
def collect : List Item → List Regexp × List Item
  | .re r :: rest => ((collect rest).1 ++ [r], (collect rest).2)
  | rest => ([], rest)

/-- Concatenation of a list of expressions (`collapse(subs, OpConcat)`). -/
def catList : List Regexp → Regexp
  | [] => .emptyMatch
  | [x] => x
  | x :: y :: xs => .concat x (catList (y :: xs))

/-- Alternation of a list of expressions (`collapse(subs, OpAlternate)`). -/
def altList : List Regexp → Regexp
  | [] => .noMatch
  | [x] => x
  | x :: y :: xs => .alternate x (altList (y :: xs))

/-- Go `parser.concat`. -/
def pconcat (st : List Item) : List Item :=
  .re (catList (collect st).1) :: (collect st).2

/-- Go `parser.alternate`. -/
def palternate (st : List Item) : List Item :=
  .re (altList (collect st).1) :: (collect st).2

/-- Go `parser.swapVerticalBar`: `none` when there is no `|` just below the top. -/
def swapVerticalBar : List Item → Option (List Item)
  | top :: .verticalBar :: rest => some (.verticalBar :: top :: rest)
  | _ => none

/-- Go `parser.parseVerticalBar`. -/
def parseVerticalBar (st : List Item) : List Item :=
  match swapVerticalBar (pconcat st) with
  | some st' => st'
  | none => .verticalBar :: pconcat st

/-- The common tail of `parseRightParen` and of the end of `parse`: concat,
drop a swapped `|`, alternate. -/
def closeGroup (st : List Item) : List Item :=
  match swapVerticalBar (pconcat st) with
  | some st' => palternate st'.tail
  | none => palternate (pconcat st)

/-- Go `parser.parseRightParen`. -/
def parseRightParen (st : List Item) : Option (List Item) :=
  match closeGroup st with
  | .re re1 :: .leftParen :: rest => some (.re (.capture re1) :: rest)
  | _ => none

/-- ASCII letter, digit (Go `isalnum`). -/
def isalnum (c : Nat) : Bool :=
  (48 ≤ c ∧ c ≤ 57) ∨ (65 ≤ c ∧ c ≤ 90) ∨ (97 ≤ c ∧ c ≤ 122)

/-- Go `parser.parseEscape` on a text that starts with a backslash: an escaped
ASCII non-word character is itself. Escapes of letters and digits (classes,
assertions, octal, hex and C escapes) are outside the embedded subset. -/
def parseEscape (s : Str) : Option (Nat × Str) :=
  match nextRune s.tail with
  | some (c, t) => if c < 0x80 ∧ ¬ isalnum c then some (c, t) else none
  | none => none

/-- Go `parser.parseClassChar`. -/
def parseClassChar (s : Str) : Option (Nat × Str) :=
  match s with
  | [] => none
  | b :: _ => if b = 92 then parseEscape s else nextRune s

/-- The loop of Go `parser.parseClass` after `[` and an optional `^`:
single characters and ranges up to the closing `]`. POSIX classes `[:name:]`
are outside the embedded subset. Returns the ranges and the text after `]`. -/
def parseClassLoop : Nat → Bool → List (Nat × Nat) → Str → Option (List (Nat × Nat) × Str)
  | 0, _, _, _ => none
  | n + 1, first, cls, t =>
    if t.head? = some 93 ∧ first = false then some (cls, t.tail)
    else if t.head? = some 91 ∧ (t.drop 1).head? = some 58 ∧ 2 < t.length then none
    else
      match parseClassChar t with
      | none => none
      | some (lo, t1) =>
        if 2 ≤ t1.length ∧ t1.head? = some 45 ∧ (t1.drop 1).head? ≠ some 93 then
          match parseClassChar t1.tail with
          | none => none
          | some (hi, t2) =>
            if hi < lo then none else parseClassLoop n false (cls ++ [(lo, hi)]) t2
        else parseClassLoop n false (cls ++ [(lo, lo)]) t1

/-- Go `parser.parseClass` on a text that starts with `[`. -/
def parseClass (s : Str) : Option (Regexp × Str) :=
  let t := s.tail
  let negated := decide (t.head? = some 94)
  let t1 := if negated then t.tail else t
  match parseClassLoop (t1.length + 1) true [] t1 with
  | some (cls, rest) => some (.charClass negated cls, rest)
  | none => none

/-- Go `parser.repeat` for `*`, `+`, `?` (with the Perl flags): `after` is the
text after the operator, `lastRepeat` tells whether the previous token was a
repetition. Non-greedy forms (`*?`) are outside the embedded subset. -/
def prepeat (op : Regexp → Regexp) (st : List Item) (after : Str) (lastRepeat : Bool) :
    Option (List Item) :=
  if after.head? = some 63 then none
  else if lastRepeat then none
  else
    match st with
    | .re sub :: rest => some (.re (op sub) :: rest)
    | _ => none

/-- The main loop of Go `syntax.parse` (flags `syntax.Perl`), one token per
iteration, dispatching on the first byte `t[0]`, over the constructs: literal
runes, `\` + punctuation, `.`, `[...]`, `(...)`, `|`, `*`, `+`, `?`. The
anchors `^` `$`, counted repetition `{`, group flags `(?` and the escapes
named at `parseEscape` are not embedded: the parser answers `none` on them, as
on a syntax error. The first argument bounds the number of tokens. -/
def parseLoop : Nat → List Item → Bool → Str → Option (List Item)
  | 0, _, _, _ => none
  | n + 1, st, lastRepeat, t =>
    match t with
    | [] => some st
    | b :: t1 =>
      if b = 40 then
        if t1.head? = some 63 then none else parseLoop n (.leftParen :: st) false t1
      else if b = 124 then parseLoop n (parseVerticalBar st) false t1
      else if b = 41 then
        match parseRightParen st with
        | some st1 => parseLoop n st1 false t1
        | none => none
      else if b = 94 ∨ b = 36 ∨ b = 123 then none
      else if b = 46 then parseLoop n (.re .anyCharNotNL :: st) false t1
      else if b = 91 then
        match parseClass t with
        | some (re, t2) => parseLoop n (.re re :: st) false t2
        | none => none
      else if b = 42 then
        match prepeat .star st t1 lastRepeat with
        | some st1 => parseLoop n st1 true t1
        | none => none
      else if b = 43 then
        match prepeat .plus st t1 lastRepeat with
        | some st1 => parseLoop n st1 true t1
        | none => none
      else if b = 63 then
        match prepeat .quest st t1 lastRepeat with
        | some st1 => parseLoop n st1 true t1
        | none => none
      else if b = 92 then
        match parseEscape t with
        | some (c, t2) => parseLoop n (.re (.literal c) :: st) false t2
        | none => none
      else
        match nextRune t with
        | some (c, t2) => parseLoop n (.re (.literal c) :: st) false t2
        | none => none

/-- Go `syntax.Parse`: run the loop, then close the implicit outer group; the
stack must hold exactly one expression. -/
def parse (s : Str) : Option Regexp :=
  match parseLoop (s.length + 1) [] false s with
  | none => none
  | some st =>
    match closeGroup st with
    | [.re r] => some r
    | _ => none

/-- The constant first half of the pattern in `main`: `([a-zA-Z0-9-]+\.)+`. -/
def patternPrefix : Str :=
  [40, 91, 97, 45, 122, 65, 45, 90, 48, 45, 57, 45, 93, 43, 92, 46, 41, 43]

/-- The expression `main` compiles (sankgrap.go:46):
``regexp.MustCompile(`([a-zA-Z0-9-]+\.)+` + regexp.QuoteMeta(*domainFlag))``;
`none` stands for the panic of `MustCompile`. -/
def subdomainRegex (domain : Str) : Option Regexp :=
  parse (patternPrefix ++ quoteMeta domain)

/-! ## regexp: matching -/

/-- Membership of a rune in a character class. -/
def inClass (negated : Bool) (ranges : List (Nat × Nat)) (r : Nat) : Bool :=
  (ranges.any fun p => decide (p.1 ≤ r ∧ r ≤ p.2)) != negated

/-- Greedy iteration: the ends reachable by zero or more rounds of `f`, more
rounds first. A round that consumes nothing is not repeated. -/
def starEnds (f : Str → List Str) : Nat → Str → List Str
  | 0, s => [s]
  | n + 1, s => ((f s).filter fun e => decide (e.length < s.length)).flatMap (starEnds f n) ++ [s]

/-- The texts that may remain after `re` has matched a prefix of `s`, in the
order in which a backtracking search finds them (Go's leftmost-first
preference: earlier alternative first, greedy repetition). -/
def ends : Regexp → Str → List Str
  | .noMatch, _ => []
  | .emptyMatch, s => [s]
  | .literal r, s =>
    match step s with
    | some (c, w) => if c = r then [s.drop w] else []
    | none => []
  | .charClass neg ranges, s =>
    match step s with
    | some (c, w) => if inClass neg ranges c then [s.drop w] else []
    | none => []
  | .anyCharNotNL, s =>
    match step s with
    | some (c, w) => if c ≠ 10 then [s.drop w] else []
    | none => []
  | .capture sub, s => ends sub s
  | .star sub, s => starEnds (ends sub) s.length s
  | .plus sub, s => (ends sub s).flatMap fun e => starEnds (ends sub) e.length e
  | .quest sub, s => ends sub s ++ [s]
  | .concat a b, s => (ends a s).flatMap (ends b)
  | .alternate a b, s => ends a s ++ ends b s

/-- The unanchored search of Go `doExecute` from byte offset `pos`: try every
start position in turn, advancing by the width of the rune stepped over; the
first start with a match wins, and there the first end in backtracking order.
Returns the offsets `(start, end)`. -/
def doExecuteLoop (re : Regexp) (s : Str) : Nat → Nat → Option (Nat × Nat)
  | 0, _ => none
  | n + 1, pos =>
    match (ends re (s.drop pos)).head? with
    | some e => some (pos, s.length - e.length)
    | none =>
      match step (s.drop pos) with
      | some (_, w) => doExecuteLoop re s n (pos + w)
      | none => none

/-- Go `(*Regexp).doExecute` on a string, from offset `pos`. -/
def doExecute (re : Regexp) (s : Str) (pos : Nat) : Option (Nat × Nat) :=
  doExecuteLoop re s (s.length + 1 - pos) pos

/-- Go `(*Regexp).allMatches`: `i` counts delivered matches (bounded by `n`),
`prevMatchEnd` is `none` for Go's `-1`. The first argument bounds the number of
iterations; every iteration moves `pos` forward. -/
def allMatchesLoop (re : Regexp) (s : Str) (n : Nat) :
    Nat → Nat → Nat → Option Nat → List (Nat × Nat)
  | 0, _, _, _ => []
  | k + 1, pos, i, prevMatchEnd =>
    if i < n ∧ pos ≤ s.length then
      match doExecute re s pos with
      | none => []
      | some (m0, m1) =>
        if m1 = pos then
          let pos1 := match step (s.drop pos) with
            | some (_, w) => pos + w
            | none => s.length + 1
          if some m0 = prevMatchEnd then allMatchesLoop re s n k pos1 i (some m1)
          else (m0, m1) :: allMatchesLoop re s n k pos1 (i + 1) (some m1)
        else (m0, m1) :: allMatchesLoop re s n k m1 (i + 1) (some m1)
    else []

/-- Go `(*Regexp).FindAllString(s, -1)`: a negative `n` becomes `len(s) + 1`;
each delivered match is the substring `s[m0:m1]`. -/
def findAllString (re : Regexp) (s : Str) : List Str :=
  (allMatchesLoop re s (s.length + 1) (s.length + 2) 0 0 none).map
    fun m => (s.take m.2).drop m.1

/-! ## sankgrap.go: responses and extraction -/

/-- The stream `resp.Body`: the bytes it delivers and whether reading it ends
in an error instead of EOF. -/
structure Body where
  data : Str
  fails : Bool
  deriving DecidableEq, Repr

/-- What `processURL` uses of an `*http.Response`: the header multi-map
(`map[string][]string`, listed in one iteration order) and the body. -/
structure Response where
  header : List (Str × List Str)
  body : Body
  deriving DecidableEq, Repr

/-- Outcome of `http.NewRequest` followed by `client.Do` for one URL. -/
inductive Fetch where
  | requestError
  | transportError
  | response (r : Response)
  deriving DecidableEq, Repr

/-- An operation performed on `resp.Body`. -/
inductive BodyOp where
  | readAll (bytesRead : Nat) (reachedEOF : Bool)
  | close
  deriving DecidableEq, Repr

/-- Go `io.ReadAll(body)`: the content when the stream ends with EOF, `none`
when it ends with an error (the partial data is then dropped by the caller). -/
def readAll (b : Body) : Option Str :=
  if b.fails then none else some b.data

/-- The locked loop `for _, match := range matches` with body
`results[match] = struct` on the key set of the map `results`. -/
def addMatches (ms : List Str) (results : Finset Str) : Finset Str :=
  ms.foldl (fun res m => insert m res) results

/-- Go `extractFromHeaders` (sankgrap.go:125). -/
def extractFromHeaders (headers : List (Str × List Str)) (re : Regexp)
    (results : Finset Str) : Finset Str :=
  headers.foldl
    (fun res kv => kv.2.foldl (fun res value => addMatches (findAllString re value) res) res)
    results

/-- Go `extractFromBody` (sankgrap.go:138): returns the new result set. -/
def extractFromBody (body : Body) (re : Regexp) (results : Finset Str) : Finset Str :=
  match readAll body with
  | some bodyContent => addMatches (findAllString re bodyContent) results
  | none => results

/-- The operations `extractFromBody` performs on the stream. -/
def extractFromBodyOps (body : Body) : List BodyOp :=
  [.readAll body.data.length (!body.fails)]

/-- The mode constant `rb`. -/
def modeRB : Str := [114, 98]

/-- Mode `rh`. -/
def modeRH : Str := [114, 104]

/-- Mode `both`. -/
def modeBoth : Str := [98, 111, 116, 104]

/-- State threaded through `processURL`: the shared result set, the progress
counter, and the operations performed on the response body (in order). -/
structure ProcState where
  results : Finset Str
  bar : Nat
  bodyOps : List BodyOp

/-- Go `processURL` (sankgrap.go:84) run without interference; `fetched` is
what `http.NewRequest` and `client.Do` give for the URL. The deferred calls
run at return in reverse order: `resp.Body.Close()`, then `bar.Add(1)`.
Logging under `verbose` has no effect on the state and is omitted. -/
def processURL (fetched : Fetch) (re : Regexp) (results : Finset Str) (bar : Nat)
    (mode : Str) : ProcState :=
  match fetched with
  | .requestError => ⟨results, bar + 1, []⟩
  | .transportError => ⟨results, bar + 1, []⟩
  | .response resp =>
    let r1 := if mode = modeRH ∨ mode = modeBoth then extractFromHeaders resp.header re results
      else results
    let r2 := if mode = modeRB ∨ mode = modeBoth then extractFromBody resp.body re r1 else r1
    let ops := if mode = modeRB ∨ mode = modeBoth then extractFromBodyOps resp.body else []
    ⟨r2, bar + 1, ops ++ [.close]⟩

/-- The matches one response contributes: `processURL` on an empty result set. -/
def extracted (re : Regexp) (resp : Response) (mode : Str) : Finset Str :=
  (processURL (.response resp) re ∅ 0 mode).results

/-- The match lists inserted by the successive critical sections
(`mu.Lock() ... mu.Unlock()`) of `processURL` for one response: one per header
value, then one for the body when it was read without error. -/
def criticalSections (re : Regexp) (resp : Response) (mode : Str) : List (List Str) :=
  (if mode = modeRH ∨ mode = modeBoth then
      resp.header.flatMap fun kv => kv.2.map (findAllString re)
    else []) ++
  (if mode = modeRB ∨ mode = modeBoth then
      match readAll resp.body with
      | some bodyContent => [findAllString re bodyContent]
      | none => []
    else [])

/-- The critical sections `processURL` still has to run once the fetch of `url`
has returned: those of the response, none after a request or transport error
(the early `return`s at sankgrap.go:100 and :111). -/
def sectionsOf (fetch : Str → Fetch) (re : Regexp) (mode : Str) (url : Str) : List (List Str) :=
  match fetch url with
  | .response resp => criticalSections re resp mode
  | _ => []

/-! ## sankgrap.go: the worker pool of `main` -/

/-- Where a worker goroutine stands. -/
inductive Worker where
  | idle
  | fetching (url : Str)
  | busy (pending : List (List Str))
  | done
  deriving DecidableEq, Repr

/-- The shared state of `main` and its workers between the start of the
goroutines and the return of `wg.Wait()`. `calls` is a ghost log of the URLs
`processURL` was called with. -/
structure Pool where
  toSend : List Str
  closed : Bool
  chan : List Str
  cap : Nat
  workers : List Worker
  results : Finset Str
  bar : Nat
  calls : List Str

/-- A goroutine. -/
inductive Thread where
  | main
  | worker (i : Nat)
  deriving DecidableEq, Repr

/-- The state after the `for i := 0; i < *workers; i++` loop has started the
goroutines: `workers` may be zero or negative, then none is started. A worker
cannot move before the first send, so starting them all first loses no run. -/
def Pool.init (urls : List Str) (workers : Int) : Pool :=
  { toSend := urls, closed := false, chan := [], cap := urls.length,
    workers := List.replicate workers.toNat .idle, results := ∅, bar := 0, calls := [] }

/-- The next step of `main`: send the next URL (`urlsChan <- url`, possible
while the buffer has room), then `close(urlsChan)`; afterwards `main` waits. -/
def stepMain (p : Pool) : Option Pool :=
  match p.toSend with
  | url :: rest =>
    if p.chan.length < p.cap then some { p with toSend := rest, chan := p.chan ++ [url] }
    else none
  | [] => if p.closed then none else some { p with closed := true }

/-- The next step of worker `i`: receive a URL from the channel (or leave the
`range` loop when the channel is closed and drained), fetch, run one critical
section, or return from `processURL` (deferred `bar.Add(1)`). -/
def stepWorker (fetch : Str → Fetch) (re : Regexp) (mode : Str) (p : Pool) (i : Nat) :
    Option Pool :=
  match p.workers[i]? with
  | none => none
  | some .idle =>
    match p.chan with
    | url :: rest =>
      some { p with chan := rest, workers := p.workers.set i (.fetching url),
                    calls := p.calls ++ [url] }
    | [] => if p.closed then some { p with workers := p.workers.set i .done } else none
  | some (.fetching url) =>
    some { p with workers := p.workers.set i (.busy (sectionsOf fetch re mode url)) }
  | some (.busy (ms :: rest)) =>
    some { p with results := addMatches ms p.results, workers := p.workers.set i (.busy rest) }
  | some (.busy []) => some { p with bar := p.bar + 1, workers := p.workers.set i .idle }
  | some .done => none

/-- One step of the named goroutine; `none` when it cannot move. -/
def stepThread (fetch : Str → Fetch) (re : Regexp) (mode : Str) (p : Pool) :
    Thread → Option Pool
  | .main => stepMain p
  | .worker i => stepWorker fetch re mode p i

/-- Run a schedule: the goroutines step in the listed order. -/
def exec (fetch : Str → Fetch) (re : Regexp) (mode : Str) : Pool → List Thread → Option Pool
  | p, [] => some p
  | p, t :: ts =>
    match stepThread fetch re mode p t with
    | some p1 => exec fetch re mode p1 ts
    | none => none

/-- The state in which `wg.Wait()` returns: `main` has sent everything and
closed the channel, and every worker has called `wg.Done()`. -/
def Pool.final (p : Pool) : Bool :=
  p.toSend.isEmpty && p.closed && p.workers.all fun w => decide (w = .done)

/-- The matches of one URL: those of its response, nothing when the fetch fails. -/
def contribution (fetch : Str → Fetch) (re : Regexp) (mode : Str) (url : Str) : Finset Str :=
  match fetch url with
  | .response resp => extracted re resp mode
  | _ => ∅

/-- The union of the contributions of all URLs. -/
def expectedResults (fetch : Str → Fetch) (re : Regexp) (mode : Str) (urls : List Str) :
    Finset Str :=
  urls.foldl (fun acc url => acc ∪ contribution fetch re mode url) ∅

/-! ## sankgrap.go: `main` -/

/-- The command-line flags. -/
structure Config where
  domain : Str
  urlsFile : Str
  outputFile : Str
  workers : Int
  mode : Str
  verbose : Bool

/-- The environment: the file system and the network. -/
structure Env where
  readLines : Str → Option (List Str)
  fetch : Str → Fetch
  createAndWrite : Str → Finset Str → Bool

/-- How `main` ends. -/
inductive Exit where
  | domainRequired
  | invalidMode
  | readFailed
  | compilePanic
  | writeFailed
  | complete
  deriving DecidableEq, Repr

/-- What a run of `main` did. -/
structure Outcome where
  exit : Exit
  readSource : Bool
  spawned : Nat
  calls : List Str
  bar : Nat
  handed : Option (Finset Str)

/-- Go `writeResults` (sankgrap.go:167): whether it returns `nil`. Printing to
standard output cannot fail. -/
def writeResults (env : Env) (results : Finset Str) (outputFile : Str) : Bool :=
  if outputFile = [] then true else env.createAndWrite outputFile results

/-- Go `main` (sankgrap.go:19) under a schedule of its goroutines; `none` when
the schedule is not a complete run of the pool (it names a goroutine that
cannot move, or stops before `wg.Wait()` can return). -/
def main (cfg : Config) (env : Env) (sched : List Thread) : Option Outcome :=
  if cfg.domain = [] then some ⟨.domainRequired, false, 0, [], 0, none⟩
  else if cfg.mode ≠ modeRB ∧ cfg.mode ≠ modeRH ∧ cfg.mode ≠ modeBoth then
    some ⟨.invalidMode, false, 0, [], 0, none⟩
  else
    match env.readLines cfg.urlsFile with
    | none => some ⟨.readFailed, true, 0, [], 0, none⟩
    | some urls =>
      match subdomainRegex cfg.domain with
      | none => some ⟨.compilePanic, true, 0, [], 0, none⟩
      | some re =>
        match exec env.fetch re cfg.mode (Pool.init urls cfg.workers) sched with
        | none => none
        | some p =>
          if p.final then
            some ⟨if writeResults env p.results cfg.outputFile then .complete else .writeFailed,
                  true, p.workers.length, p.calls, p.bar, some p.results⟩
          else none


/-! ## Auxiliary notions used in the statements -/

/-- Every match occurrence on the header values, in scan order. -/
def headerOccurrences (re : Regexp) (headers : List (Str × List Str)) : List Str :=
  headers.flatMap fun kv => kv.2.flatMap (findAllString re)

/-- Every match occurrence on the body read as one string; none when the read fails. -/
def bodyOccurrences (re : Regexp) (body : Body) : List Str :=
  match readAll body with
  | some bodyContent => findAllString re bodyContent
  | none => []

/-- Every match occurrence on the surfaces scanned under `mode`, repeats included. -/
def occurrences (re : Regexp) (resp : Response) (mode : Str) : List Str :=
  (if mode = modeRH ∨ mode = modeBoth then headerOccurrences re resp.header else []) ++
  (if mode = modeRB ∨ mode = modeBoth then bodyOccurrences re resp.body else [])

/-- The matches a worker still has to insert. -/
def pendingOf (fetch : Str → Fetch) (re : Regexp) (mode : Str) : Worker → Finset Str
  | .fetching url => contribution fetch re mode url
  | .busy pending => pending.flatten.toFinset
  | _ => ∅

/-- One for a worker inside a call of `processURL`, zero otherwise. -/
def Worker.inCall : Worker → Nat
  | .fetching _ => 1
  | .busy _ => 1
  | _ => 0

/-- Steps a worker still takes on its current URL, plus one for leaving its loop. -/
def workerCost (fetch : Str → Fetch) (re : Regexp) (mode : Str) : Worker → Nat
  | .idle => 1
  | .fetching url => 3 + (sectionsOf fetch re mode url).length
  | .busy pending => 2 + pending.length
  | .done => 0

/-- The number of steps left in any run from `p`: every goroutine step lowers
it by one. -/
def stepsLeft (fetch : Str → Fetch) (re : Regexp) (mode : Str) (p : Pool) : Nat :=
  (p.toSend.map fun url => 4 + (sectionsOf fetch re mode url).length).sum
  + (if p.closed then 0 else 1)
  + (p.chan.map fun url => 3 + (sectionsOf fetch re mode url).length).sum
  + (p.workers.map (workerCost fetch re mode)).sum

/-- The invariant of the pool over the runs from `Pool.init urls n`. -/
structure Inv (fetch : Str → Fetch) (re : Regexp) (mode : Str) (urls : List Str) (n : Int)
    (p : Pool) : Prop where
  queue : urls = p.calls ++ p.chan ++ p.toSend
  cap : p.cap = urls.length
  closed : p.closed = true → p.toSend = []
  done : Worker.done ∈ p.workers → p.chan = [] ∧ p.closed = true
  bar : p.bar + (p.workers.map Worker.inCall).sum = p.calls.length
  total : ∀ x, (x ∈ p.results ∨ (∃ w ∈ p.workers, x ∈ pendingOf fetch re mode w)
      ∨ (∃ url ∈ p.chan ++ p.toSend, x ∈ contribution fetch re mode url))
      ↔ x ∈ expectedResults fetch re mode urls
  nworkers : p.workers.length = n.toNat

/-- Bytes of a label: `a`-`z`, `A`-`Z`, `0`-`9` and `-`. -/
def isLabelByte (b : Nat) : Bool :=
  (97 ≤ b ∧ b ≤ 122) ∨ (65 ≤ b ∧ b ≤ 90) ∨ (48 ≤ b ∧ b ≤ 57) ∨ b = 45

/-- The byte strings an expression can consume (its language over bytes, with
the decoding of `step`): used to state what a match looks like. -/
def Lang : Regexp → Str → Prop
  | .noMatch, _ => False
  | .emptyMatch, c => c = []
  | .literal r, c => ∃ e, step (c ++ e) = some (r, c.length)
  | .charClass neg ranges, c =>
    ∃ e r, step (c ++ e) = some (r, c.length) ∧ inClass neg ranges r = true
  | .anyCharNotNL, c => ∃ e r, step (c ++ e) = some (r, c.length) ∧ r ≠ 10
  | .capture sub, c => Lang sub c
  | .star sub, c => ∃ cs : List Str, c = cs.flatten ∧ ∀ x ∈ cs, Lang sub x
  | .plus sub, c => ∃ cs : List Str, cs ≠ [] ∧ c = cs.flatten ∧ ∀ x ∈ cs, Lang sub x
  | .quest sub, c => c = [] ∨ Lang sub c
  | .concat a b, c => ∃ c1 c2, c = c1 ++ c2 ∧ Lang a c1 ∧ Lang b c2
  | .alternate a b, c => Lang a c ∨ Lang b c

/-- The expression for one `label.` segment: `([a-zA-Z0-9-]+\.)`. -/
def segmentRe : Regexp :=
  .capture (.concat (.plus (.charClass false [(97, 122), (65, 90), (48, 57), (45, 45)]))
    (.literal 46))

/-- The expression `main` compiles for a domain whose runes are `rs`:
one or more segments, then the runes of the domain as literals. -/
def patternRe (rs : List Nat) : Regexp :=
  catList (.plus segmentRe :: rs.map .literal)

/-! ## Concrete scenarios -/

/-- The pattern compiled for the target domain `example.com`. -/
def exampleRe : Regexp := patternRe (str "example.com")

/-- Response 1 of the scenario: the matches are in the body. -/
def scenarioResp1 : Response :=
  ⟨[], ⟨str "see https://api.example.com/v1 and cdn.example.com", false⟩⟩

/-- Response 2 of the scenario: the match is in the `Location` header. -/
def scenarioResp2 : Response :=
  ⟨[(str "Location", [str "www.example.com/redirect"])], ⟨[], false⟩⟩

/-- An environment serving the two responses of the scenario; any other URL fails. -/
def scenarioEnv : Env where
  readLines := fun _ => some [str "http://a/", str "http://b/"]
  fetch := fun url =>
    if url = str "http://a/" then .response scenarioResp1
    else if url = str "http://b/" then .response scenarioResp2
    else .transportError
  createAndWrite := fun _ _ => false

/-- Flags of the scenario: `-d example.com -f urls.txt -w 2`. -/
def scenarioConfig : Config :=
  ⟨str "example.com", str "urls.txt", [], 2, modeBoth, false⟩

/-- One interleaving of `main` and two workers on the two URLs. -/
def scenarioSchedule : List Thread :=
  [.main, .main, .main, .worker 0, .worker 1, .worker 0, .worker 1, .worker 1, .worker 1,
   .worker 0, .worker 0, .worker 1, .worker 0, .worker 1]

/-- An environment in which the second of three URLs cannot be fetched. -/
def failingEnv : Env where
  readLines := fun _ => some [str "http://a/", str "http://down/", str "http://b/"]
  fetch := scenarioEnv.fetch
  createAndWrite := fun _ _ => false

theorem addMatches_eq (ms : List Str) (results : Finset Str) :
    addMatches ms results = results ∪ ms.toFinset := by
  unfold addMatches
  induction ms generalizing results with
  | nil => simp
  | cons m ms ih =>
    rw [List.foldl_cons, ih]
    ext x
    simp only [Finset.mem_union, Finset.mem_insert, List.toFinset_cons]
    tauto

theorem values_fold_eq (re : Regexp) (values : List Str) (results : Finset Str) :
    values.foldl (fun res value => addMatches (findAllString re value) res) results
      = results ∪ (values.flatMap (findAllString re)).toFinset := by
  induction values generalizing results with
  | nil => simp
  | cons v vs ih =>
    rw [List.foldl_cons, ih, addMatches_eq]
    ext x
    simp only [Finset.mem_union, List.mem_toFinset, List.flatMap_cons, List.mem_append]
    tauto

theorem extractFromHeaders_eq (re : Regexp) (headers : List (Str × List Str))
    (results : Finset Str) :
    extractFromHeaders headers re results = results ∪ (headerOccurrences re headers).toFinset := by
  unfold extractFromHeaders headerOccurrences
  induction headers generalizing results with
  | nil => simp
  | cons kv hs ih =>
    rw [List.foldl_cons, ih, values_fold_eq]
    ext x
    simp only [Finset.mem_union, List.mem_toFinset, List.flatMap_cons, List.mem_append]
    tauto

theorem extractFromBody_eq (re : Regexp) (body : Body) (results : Finset Str) :
    extractFromBody body re results = results ∪ (bodyOccurrences re body).toFinset := by
  unfold extractFromBody bodyOccurrences
  cases readAll body with
  | none => simp
  | some c => simp [addMatches_eq]

theorem processURL_results (re : Regexp) (resp : Response) (results : Finset Str) (bar : Nat)
    (mode : Str) :
    (processURL (.response resp) re results bar mode).results
      = results ∪ (occurrences re resp mode).toFinset := by
  simp only [processURL, occurrences]
  by_cases h1 : mode = modeRH ∨ mode = modeBoth <;> by_cases h2 : mode = modeRB ∨ mode = modeBoth
  · simp only [if_pos h1, if_pos h2, extractFromBody_eq, extractFromHeaders_eq]
    ext x; simp only [Finset.mem_union, List.mem_toFinset, List.mem_append]; tauto
  · simp only [if_pos h1, if_neg h2, extractFromHeaders_eq]
    ext x; simp
  · simp only [if_neg h1, if_pos h2, extractFromBody_eq]
    ext x; simp
  · simp only [if_neg h1, if_neg h2]
    ext x; simp

theorem extracted_eq (re : Regexp) (resp : Response) (mode : Str) :
    extracted re resp mode = (occurrences re resp mode).toFinset := by
  unfold extracted
  rw [processURL_results]
  simp

theorem mem_headerOccurrences (re : Regexp) (headers : List (Str × List Str)) (x : Str) :
    x ∈ headerOccurrences re headers ↔
      ∃ kv ∈ headers, ∃ value ∈ kv.2, x ∈ findAllString re value := by
  simp [headerOccurrences, List.mem_flatMap]

/-- C2. What `processURL` (through `extractFromHeaders` and `extractFromBody`) adds to the
result set is exactly the set of strings the matcher returns on some individual header value
(modes `rh`, `both`) or on the whole body read as one string (modes `rb`, `both`; a failed
read yields nothing); repeated occurrences collapse, so the number of added values is the
number of distinct occurrences. -/
theorem processURL_adds_distinct_matches (re : Regexp) (resp : Response) (mode : Str)
    (results : Finset Str) (bar : Nat) :
    (processURL (.response resp) re results bar mode).results
        = results ∪ extracted re resp mode
    ∧ (∀ x, x ∈ extracted re resp mode ↔
        ((mode = modeRH ∨ mode = modeBoth) ∧
            ∃ kv ∈ resp.header, ∃ value ∈ kv.2, x ∈ findAllString re value)
        ∨ ((mode = modeRB ∨ mode = modeBoth) ∧
            ∃ bodyContent, readAll resp.body = some bodyContent ∧
              x ∈ findAllString re bodyContent))
    ∧ (extracted re resp mode).card = (occurrences re resp mode).dedup.length
    ∧ (extracted re resp mode).card + ((occurrences re resp mode).length
          - (occurrences re resp mode).dedup.length) = (occurrences re resp mode).length := by
  refine ⟨?_, ?_, ?_, ?_⟩
  · rw [processURL_results, extracted_eq]
  · intro x
    rw [extracted_eq, List.mem_toFinset, occurrences, List.mem_append]
    have hb : x ∈ bodyOccurrences re resp.body ↔
        ∃ bodyContent, readAll resp.body = some bodyContent ∧
          x ∈ findAllString re bodyContent := by
      unfold bodyOccurrences
      cases readAll resp.body <;> simp
    by_cases h1 : mode = modeRH ∨ mode = modeBoth <;>
      by_cases h2 : mode = modeRB ∨ mode = modeBoth <;>
      simp only [if_pos, if_neg, h1, h2, mem_headerOccurrences, hb, List.not_mem_nil,
        true_and, false_and, not_false_eq_true]
  · rw [extracted_eq, List.card_toFinset]
  · rw [extracted_eq, List.card_toFinset]
    have := List.Sublist.length_le (List.dedup_sublist (occurrences re resp mode))
    omega

/-- C5. Under mode `rh` a string the matcher returns on no header value is not added to the
result set by `processURL`, whatever the body holds; under mode `rb` a string the matcher
does not return on the body is not added, whatever the headers hold. -/
theorem processURL_mode_isolation (re : Regexp) (resp : Response) (results : Finset Str)
    (bar : Nat) (m : Str) (hm : m ∉ results) :
    ((∀ kv ∈ resp.header, ∀ value ∈ kv.2, m ∉ findAllString re value) →
        m ∉ (processURL (.response resp) re results bar modeRH).results)
    ∧ ((∀ bodyContent, readAll resp.body = some bodyContent →
          m ∉ findAllString re bodyContent) →
        m ∉ (processURL (.response resp) re results bar modeRB).results) := by
  constructor
  · intro h
    rw [processURL_results, Finset.mem_union, List.mem_toFinset, occurrences]
    have e1 : (modeRH = modeRH ∨ modeRH = modeBoth) := Or.inl rfl
    have e2 : ¬ (modeRH = modeRB ∨ modeRH = modeBoth) := by decide
    rw [if_pos e1, if_neg e2, List.append_nil, mem_headerOccurrences]
    rintro (h1 | ⟨kv, hkv, v, hv, hx⟩)
    · exact hm h1
    · exact h kv hkv v hv hx
  · intro h
    rw [processURL_results, Finset.mem_union, List.mem_toFinset, occurrences]
    have e1 : ¬ (modeRB = modeRH ∨ modeRB = modeBoth) := by decide
    have e2 : (modeRB = modeRB ∨ modeRB = modeBoth) := Or.inl rfl
    rw [if_neg e1, if_pos e2, List.nil_append]
    rintro (h1 | h2)
    · exact hm h1
    · unfold bodyOccurrences at h2
      cases hr : readAll resp.body with
      | none => rw [hr] at h2; simp at h2
      | some c => rw [hr] at h2; exact h c hr h2

/-! ## The worker pool: invariants of every schedule -/

theorem mem_set_self {α : Type} :
    ∀ (l : List α) (i : Nat) (w0 v : α), l[i]? = some w0 → v ∈ l.set i v
  | [], i, _, _, h => by simp at h
  | a :: l, 0, _, v, _ => by simp
  | a :: l, i + 1, w0, v, h => by
    simp only [List.getElem?_cons_succ] at h
    simp only [List.set_cons_succ, List.mem_cons]
    exact Or.inr (mem_set_self l i w0 v h)

theorem mem_set_or_eq {α : Type} :
    ∀ (l : List α) (i : Nat) (w0 v w : α), l[i]? = some w0 → w ∈ l → w ∈ l.set i v ∨ w = w0
  | [], i, _, _, _, h, _ => by simp at h
  | a :: l, 0, w0, v, w, h, hw => by
    simp only [List.getElem?_cons_zero, Option.some.injEq] at h
    simp only [List.mem_cons] at hw
    simp only [List.set_cons_zero, List.mem_cons]
    rcases hw with rfl | hw
    · exact Or.inr h
    · exact Or.inl (Or.inr hw)
  | a :: l, i + 1, w0, v, w, h, hw => by
    simp only [List.getElem?_cons_succ] at h
    simp only [List.mem_cons] at hw
    simp only [List.set_cons_succ, List.mem_cons]
    rcases hw with rfl | hw
    · exact Or.inl (Or.inl rfl)
    · rcases mem_set_or_eq l i w0 v w h hw with h1 | h1
      · exact Or.inl (Or.inr h1)
      · exact Or.inr h1

/-- Replacing a worker whose property is kept by its successor. -/
theorem exists_set_of_imp {α : Type} (P : α → Prop) (l : List α) (i : Nat) (w0 v : α)
    (h : l[i]? = some w0) (himp : P w0 → P v) :
    (∃ w ∈ l.set i v, P w) ↔ ((∃ w ∈ l, P w) ∨ P v) := by
  constructor
  · rintro ⟨w, hw, hP⟩
    rcases List.mem_or_eq_of_mem_set hw with h1 | h1
    · exact Or.inl ⟨w, h1, hP⟩
    · exact Or.inr (h1 ▸ hP)
  · rintro (⟨w, hw, hP⟩ | hP)
    · rcases mem_set_or_eq l i w0 v w h hw with h1 | h1
      · exact ⟨w, h1, hP⟩
      · exact ⟨v, mem_set_self l i w0 v h, himp (h1 ▸ hP)⟩
    · exact ⟨v, mem_set_self l i w0 v h, hP⟩

/-- Replacing a worker by one whose property the old one had. -/
theorem exists_of_set_imp {α : Type} (P : α → Prop) (l : List α) (i : Nat) (w0 v : α)
    (h : l[i]? = some w0) (himp : P v → P w0) :
    (∃ w ∈ l, P w) ↔ ((∃ w ∈ l.set i v, P w) ∨ P w0) := by
  constructor
  · rintro ⟨w, hw, hP⟩
    rcases mem_set_or_eq l i w0 v w h hw with h1 | h1
    · exact Or.inl ⟨w, h1, hP⟩
    · exact Or.inr (h1 ▸ hP)
  · rintro (⟨w, hw, hP⟩ | hP)
    · rcases List.mem_or_eq_of_mem_set hw with h1 | h1
      · exact ⟨w, h1, hP⟩
      · exact ⟨w0, List.getElem?_mem h, himp (h1 ▸ hP)⟩
    · exact ⟨w0, List.getElem?_mem h, hP⟩

theorem sum_map_set {α : Type} (f : α → Nat) :
    ∀ (l : List α) (i : Nat) (w0 v : α), l[i]? = some w0 →
      ((l.set i v).map f).sum + f w0 = (l.map f).sum + f v
  | [], i, _, _, h => by simp at h
  | a :: l, 0, w0, v, h => by
    simp at h; subst h; simp; omega
  | a :: l, i + 1, w0, v, h => by
    simp at h
    have ih := sum_map_set f l i w0 v h
    simp only [List.set_cons_succ, List.map_cons, List.sum_cons]
    omega

theorem stepThread_cases {fetch : Str → Fetch} {re : Regexp} {mode : Str} {p p' : Pool}
    {t : Thread} (h : stepThread fetch re mode p t = some p') :
    (∃ u rest, p.toSend = u :: rest ∧ p.chan.length < p.cap ∧
        p' = { p with toSend := rest, chan := p.chan ++ [u] })
    ∨ (p.toSend = [] ∧ p.closed = false ∧ p' = { p with closed := true })
    ∨ (∃ i u rest, p.workers[i]? = some .idle ∧ p.chan = u :: rest ∧
        p' = { p with chan := rest, workers := p.workers.set i (.fetching u),
                      calls := p.calls ++ [u] })
    ∨ (∃ i, p.workers[i]? = some .idle ∧ p.chan = [] ∧ p.closed = true ∧
        p' = { p with workers := p.workers.set i .done })
    ∨ (∃ i u, p.workers[i]? = some (.fetching u) ∧
        p' = { p with workers := p.workers.set i (.busy (sectionsOf fetch re mode u)) })
    ∨ (∃ i ms rest, p.workers[i]? = some (.busy (ms :: rest)) ∧
        p' = { p with results := addMatches ms p.results,
                      workers := p.workers.set i (.busy rest) })
    ∨ (∃ i, p.workers[i]? = some (.busy []) ∧
        p' = { p with bar := p.bar + 1, workers := p.workers.set i .idle }) := by
  cases t with
  | main =>
    simp only [stepThread, stepMain] at h
    split at h
    · rename_i u rest hs
      split at h
      · rename_i hc
        simp only [Option.some.injEq] at h
        exact Or.inl ⟨u, rest, hs, hc, h.symm⟩
      · simp at h
    · rename_i hs
      split at h
      · simp at h
      · rename_i hc
        simp only [Option.some.injEq] at h
        refine Or.inr (Or.inl ⟨hs, ?_, h.symm⟩)
        simpa using hc
  | worker i =>
    simp only [stepThread, stepWorker] at h
    split at h
    · simp at h
    · rename_i hw
      split at h
      · rename_i u rest hc
        simp only [Option.some.injEq] at h
        exact Or.inr (Or.inr (Or.inl ⟨i, u, rest, hw, hc, h.symm⟩))
      · rename_i hc
        split at h
        · rename_i hcl
          simp only [Option.some.injEq] at h
          exact Or.inr (Or.inr (Or.inr (Or.inl ⟨i, hw, hc, hcl, h.symm⟩)))
        · simp at h
    · rename_i u hw
      simp only [Option.some.injEq] at h
      exact Or.inr (Or.inr (Or.inr (Or.inr (Or.inl ⟨i, u, hw, h.symm⟩))))
    · rename_i ms rest hw
      simp only [Option.some.injEq] at h
      exact Or.inr (Or.inr (Or.inr (Or.inr (Or.inr (Or.inl ⟨i, ms, rest, hw, h.symm⟩)))))
    · rename_i hw
      simp only [Option.some.injEq] at h
      exact Or.inr (Or.inr (Or.inr (Or.inr (Or.inr (Or.inr ⟨i, hw, h.symm⟩)))))
    · simp at h

theorem mem_expectedResults (fetch : Str → Fetch) (re : Regexp) (mode : Str) (urls : List Str)
    (x : Str) :
    x ∈ expectedResults fetch re mode urls ↔ ∃ url ∈ urls, x ∈ contribution fetch re mode url := by
  unfold expectedResults
  have key : ∀ (l : List Str) (acc : Finset Str),
      x ∈ l.foldl (fun acc url => acc ∪ contribution fetch re mode url) acc ↔
        x ∈ acc ∨ ∃ url ∈ l, x ∈ contribution fetch re mode url := by
    intro l
    induction l with
    | nil => intro acc; simp
    | cons u l ih =>
      intro acc
      rw [List.foldl_cons, ih]
      simp only [Finset.mem_union, List.mem_cons, exists_eq_or_imp]
      tauto
  rw [key]
  simp

theorem flatten_criticalSections (re : Regexp) (resp : Response) (mode : Str) :
    (criticalSections re resp mode).flatten = occurrences re resp mode := by
  have hh : ∀ l : List (Str × List Str),
      (l.flatMap fun kv => kv.2.map (findAllString re)).flatten = headerOccurrences re l := by
    intro l
    unfold headerOccurrences
    induction l with
    | nil => rfl
    | cons kv l ih =>
      simp only [List.flatMap_cons, List.flatten_append, ih]
      congr 1
  unfold criticalSections occurrences
  rw [List.flatten_append]
  congr 1
  · split
    · exact hh _
    · rfl
  · split
    · unfold bodyOccurrences
      cases readAll resp.body <;> simp
    · rfl

/-- The critical sections of a response, run one after the other, do to the result set what
`processURL` does to it. -/
theorem sections_run_eq_processURL (re : Regexp) (resp : Response) (mode : Str)
    (results : Finset Str) (bar : Nat) :
    (criticalSections re resp mode).foldl (fun res ms => addMatches ms res) results
      = (processURL (.response resp) re results bar mode).results := by
  have key : ∀ (l : List (List Str)) (acc : Finset Str),
      l.foldl (fun res ms => addMatches ms res) acc = acc ∪ l.flatten.toFinset := by
    intro l
    induction l with
    | nil => intro acc; simp
    | cons ms l ih =>
      intro acc
      rw [List.foldl_cons, ih, addMatches_eq]
      ext x
      simp only [Finset.mem_union, List.mem_toFinset, List.flatten_cons, List.mem_append]
      tauto
  rw [key, flatten_criticalSections, processURL_results]

theorem pendingOf_sections (fetch : Str → Fetch) (re : Regexp) (mode : Str) (url : Str) :
    pendingOf fetch re mode (.busy (sectionsOf fetch re mode url))
      = pendingOf fetch re mode (.fetching url) := by
  simp only [pendingOf, sectionsOf, contribution]
  cases fetch url with
  | requestError => rfl
  | transportError => rfl
  | response resp => simp only [flatten_criticalSections, extracted_eq]

theorem inv_init (fetch : Str → Fetch) (re : Regexp) (mode : Str) (urls : List Str) (n : Int) :
    Inv fetch re mode urls n (Pool.init urls n) where
  queue := by simp [Pool.init]
  cap := rfl
  closed := by simp [Pool.init]
  done := by
    intro h
    simp [Pool.init, List.mem_replicate] at h
  bar := by
    simp [Pool.init, Worker.inCall]
  total := by
    intro x
    rw [mem_expectedResults]
    simp only [Pool.init, List.nil_append, Finset.not_mem_empty, false_or]
    constructor
    · rintro (⟨w, hw, hx⟩ | h)
      · rw [List.mem_replicate] at hw
        rw [hw.2] at hx
        simp [pendingOf] at hx
      · exact h
    · intro h; exact Or.inr h
  nworkers := by simp [Pool.init]

theorem prop_shift (D A C B : Prop) : (D ∨ (A ∨ C) ∨ B) ↔ (D ∨ A ∨ C ∨ B) := by tauto

theorem prop_absorb (D A C B : Prop) (h : C → A) : (D ∨ (A ∨ C) ∨ B) ↔ (D ∨ A ∨ B) := by tauto

theorem prop_move (D E A B C : Prop) (h : C → A) :
    ((D ∨ E) ∨ A ∨ B) ↔ (D ∨ (A ∨ E ∨ C) ∨ B) := by tauto

theorem inv_step {fetch : Str → Fetch} {re : Regexp} {mode : Str} {urls : List Str} {n : Int}
    {p p' : Pool} {t : Thread} (hI : Inv fetch re mode urls n p)
    (h : stepThread fetch re mode p t = some p') : Inv fetch re mode urls n p' := by
  obtain ⟨hq, hcap, hcl, hdn, hbar, htot, hn⟩ := hI
  rcases stepThread_cases h with ⟨u, rest, hs, -, rfl⟩ | ⟨hs, hc, rfl⟩ |
      ⟨i, u, rest, hw, hc, rfl⟩ | ⟨i, hw, hc, hcl', rfl⟩ | ⟨i, u, hw, rfl⟩ |
      ⟨i, ms, rest, hw, rfl⟩ | ⟨i, hw, rfl⟩
  · -- main sends
    have hnc : p.closed ≠ true := fun hc => by rw [hcl hc] at hs; cases hs
    refine ⟨?_, hcap, ?_, ?_, hbar, ?_, hn⟩
    · simp only [hq, hs, List.append_assoc, List.singleton_append]
    · intro hc; exact absurd hc hnc
    · intro hd; exact absurd (hdn hd).2 hnc
    · intro x
      rw [← htot x, hs]
      simp only [List.append_assoc, List.singleton_append]
  · -- main closes the channel
    refine ⟨hq, hcap, fun _ => hs, ?_, hbar, htot, hn⟩
    intro hd
    exact ⟨(hdn hd).1, rfl⟩
  · -- a worker receives a URL
    have hnd : Worker.done ∉ p.workers := fun hd => by rw [(hdn hd).1] at hc; cases hc
    have hS := sum_map_set Worker.inCall p.workers i .idle
      (.fetching u) hw
    refine ⟨?_, hcap, hcl, ?_, ?_, ?_, ?_⟩
    · simp only [hq, hc, List.append_assoc, List.singleton_append, List.cons_append,
        List.nil_append]
    · intro hd
      rcases List.mem_or_eq_of_mem_set hd with h1 | h1
      · exact absurd h1 hnd
      · cases h1
    · dsimp only
      simp only [List.length_append, List.length_singleton]
      simp only [Worker.inCall] at hS
      omega
    · intro x
      have hE : (∃ w ∈ p.workers.set i (.fetching u), x ∈ pendingOf fetch re mode w) ↔
          ((∃ w ∈ p.workers, x ∈ pendingOf fetch re mode w)
            ∨ x ∈ contribution fetch re mode u) :=
        exists_set_of_imp (fun w => x ∈ pendingOf fetch re mode w) p.workers i .idle
          (.fetching u) hw (by simp [pendingOf])
      rw [← htot x, hc]
      dsimp only
      simp only [List.cons_append, List.mem_cons, exists_eq_or_imp]
      rw [hE]
      exact prop_shift _ _ _ _
    · simp only [List.length_set]; exact hn
  · -- a worker leaves its loop
    have hS := sum_map_set Worker.inCall p.workers i .idle
      .done hw
    refine ⟨hq, hcap, hcl, fun _ => ⟨hc, hcl'⟩, ?_, ?_, ?_⟩
    · dsimp only
      simp only [Worker.inCall] at hS
      omega
    · intro x
      have hE : (∃ w ∈ p.workers.set i .done, x ∈ pendingOf fetch re mode w) ↔
          ((∃ w ∈ p.workers, x ∈ pendingOf fetch re mode w) ∨ x ∈ (∅ : Finset Str)) :=
        exists_set_of_imp (fun w => x ∈ pendingOf fetch re mode w) p.workers i .idle
          .done hw (by simp [pendingOf])
      rw [← htot x]
      dsimp only
      rw [hE]
      simp only [Finset.not_mem_empty, or_false]
    · simp only [List.length_set]; exact hn
  · -- a worker's fetch returns
    have hS := sum_map_set Worker.inCall p.workers i
      (.fetching u) (.busy (sectionsOf fetch re mode u)) hw
    refine ⟨hq, hcap, hcl, ?_, ?_, ?_, ?_⟩
    · intro hd
      rcases List.mem_or_eq_of_mem_set hd with h1 | h1
      · exact hdn h1
      · cases h1
    · dsimp only
      simp only [Worker.inCall] at hS
      omega
    · intro x
      have hE := exists_set_of_imp (fun w => x ∈ pendingOf fetch re mode w) p.workers i
        (.fetching u) (.busy (sectionsOf fetch re mode u)) hw
        (fun hx => by
          show x ∈ pendingOf fetch re mode (.busy (sectionsOf fetch re mode u))
          rw [pendingOf_sections]; exact hx)
      have hmem : Worker.fetching u ∈ p.workers := List.getElem?_mem hw
      have hback : x ∈ pendingOf fetch re mode (.busy (sectionsOf fetch re mode u)) →
          ∃ w ∈ p.workers, x ∈ pendingOf fetch re mode w := by
        rw [pendingOf_sections]; exact fun hx => ⟨_, hmem, hx⟩
      rw [← htot x]
      dsimp only
      rw [hE]
      exact prop_absorb _ _ _ _ hback
    · simp only [List.length_set]; exact hn
  · -- a worker runs one critical section
    have hS := sum_map_set Worker.inCall p.workers i
      (.busy (ms :: rest)) (.busy rest) hw
    refine ⟨hq, hcap, hcl, ?_, ?_, ?_, ?_⟩
    · intro hd
      rcases List.mem_or_eq_of_mem_set hd with h1 | h1
      · exact hdn h1
      · cases h1
    · dsimp only
      simp only [Worker.inCall] at hS
      omega
    · intro x
      have hsub : x ∈ pendingOf fetch re mode (.busy (ms :: rest)) ↔
          (x ∈ ms ∨ x ∈ pendingOf fetch re mode (.busy rest)) := by
        simp only [pendingOf, List.flatten_cons, List.mem_toFinset, List.mem_append]
      have hE := exists_of_set_imp (fun w => x ∈ pendingOf fetch re mode w) p.workers i
        (.busy (ms :: rest)) (.busy rest) hw (fun hx => hsub.mpr (Or.inr hx))
      have hfwd : x ∈ pendingOf fetch re mode (.busy rest) →
          ∃ w ∈ p.workers.set i (.busy rest), x ∈ pendingOf fetch re mode w :=
        fun hx => ⟨_, mem_set_self p.workers i _ _ hw, hx⟩
      rw [← htot x, hE]
      dsimp only
      rw [hsub, addMatches_eq, Finset.mem_union, List.mem_toFinset]
      exact prop_move _ _ _ _ _ hfwd
    · simp only [List.length_set]; exact hn
  · -- a worker returns from processURL
    have hS := sum_map_set Worker.inCall p.workers i
      (.busy []) .idle hw
    refine ⟨hq, hcap, hcl, ?_, ?_, ?_, ?_⟩
    · intro hd
      rcases List.mem_or_eq_of_mem_set hd with h1 | h1
      · exact hdn h1
      · cases h1
    · dsimp only
      simp only [Worker.inCall] at hS
      omega
    · intro x
      have hE : (∃ w ∈ p.workers.set i .idle, x ∈ pendingOf fetch re mode w) ↔
          ((∃ w ∈ p.workers, x ∈ pendingOf fetch re mode w) ∨ x ∈ (∅ : Finset Str)) :=
        exists_set_of_imp (fun w => x ∈ pendingOf fetch re mode w) p.workers i (.busy [])
          .idle hw (by simp [pendingOf])
      rw [← htot x]
      dsimp only
      rw [hE]
      simp only [Finset.not_mem_empty, or_false]
    · simp only [List.length_set]; exact hn

theorem inv_exec {fetch : Str → Fetch} {re : Regexp} {mode : Str} {urls : List Str} {n : Int} :
    ∀ (sched : List Thread) (p p' : Pool), Inv fetch re mode urls n p →
      exec fetch re mode p sched = some p' → Inv fetch re mode urls n p'
  | [], p, p', hI, h => by
    simp only [exec, Option.some.injEq] at h
    exact h ▸ hI
  | t :: ts, p, p', hI, h => by
    simp only [exec] at h
    cases hs : stepThread fetch re mode p t with
    | none => rw [hs] at h; cases h
    | some p1 =>
      rw [hs] at h
      exact inv_exec ts p1 p' (inv_step hI hs) h

theorem inv_reachable {fetch : Str → Fetch} {re : Regexp} {mode : Str} {urls : List Str}
    {n : Int} {sched : List Thread} {p : Pool}
    (h : exec fetch re mode (Pool.init urls n) sched = some p) : Inv fetch re mode urls n p :=
  inv_exec sched _ p (inv_init fetch re mode urls n) h

theorem final_iff (p : Pool) :
    p.final = true ↔ p.toSend = [] ∧ p.closed = true ∧ ∀ w ∈ p.workers, w = .done := by
  simp [Pool.final, List.isEmpty_iff, and_assoc]

theorem sum_inCall_done : ∀ (l : List Worker), (∀ w ∈ l, w = .done) →
    (l.map Worker.inCall).sum = 0
  | [], _ => rfl
  | w :: l, h => by
    have h1 : w = .done := h w (List.mem_cons_self _ _)
    have h2 := sum_inCall_done l (fun w hw => h w (List.mem_cons_of_mem _ hw))
    subst h1
    simp only [List.map_cons, List.sum_cons, h2, Worker.inCall]

/-- What holds when `wg.Wait()` returns in a pool with at least one worker. -/
theorem final_facts {fetch : Str → Fetch} {re : Regexp} {mode : Str} {urls : List Str} {n : Int}
    {p : Pool} (hI : Inv fetch re mode urls n p) (hf : p.final = true) (hn : 1 ≤ n) :
    p.results = expectedResults fetch re mode urls ∧ p.bar = urls.length ∧ p.calls = urls := by
  obtain ⟨hts, hcl, hall⟩ := (final_iff p).mp hf
  have hlen : 0 < p.workers.length := by rw [hI.nworkers]; omega
  obtain ⟨w, hw⟩ := List.exists_mem_of_length_pos hlen
  have hdone : Worker.done ∈ p.workers := hall w hw ▸ hw
  have hchan := (hI.done hdone).1
  have hcalls : p.calls = urls := by
    have := hI.queue
    rw [hchan, hts] at this
    simpa using this.symm
  refine ⟨?_, ?_, hcalls⟩
  · ext x
    rw [← hI.total x, hchan, hts]
    constructor
    · exact Or.inl
    · rintro (h | ⟨w, hw, hx⟩ | ⟨u, hu, -⟩)
      · exact h
      · rw [hall w hw] at hx
        simp [pendingOf] at hx
      · simp at hu
  · have := hI.bar
    rw [sum_inCall_done _ hall, hcalls] at this
    omega

theorem mem_expected_iff (fetch : Str → Fetch) (re : Regexp) (mode : Str) (urls : List Str)
    (x : Str) :
    x ∈ expectedResults fetch re mode urls ↔
      ∃ url ∈ urls, ∃ resp, fetch url = .response resp ∧ x ∈ extracted re resp mode := by
  rw [mem_expectedResults]
  constructor
  · rintro ⟨u, hu, hx⟩
    unfold contribution at hx
    cases hf : fetch u with
    | requestError => rw [hf] at hx; simp at hx
    | transportError => rw [hf] at hx; simp at hx
    | response resp => rw [hf] at hx; exact ⟨u, hu, resp, hf, hx⟩
  · rintro ⟨u, hu, resp, hf, hx⟩
    refine ⟨u, hu, ?_⟩
    unfold contribution
    rw [hf]
    exact hx

theorem stepsLeft_step {fetch : Str → Fetch} {re : Regexp} {mode : Str} {p p' : Pool}
    {t : Thread} (h : stepThread fetch re mode p t = some p') :
    stepsLeft fetch re mode p = stepsLeft fetch re mode p' + 1 := by
  rcases stepThread_cases h with ⟨u, rest, hs, -, rfl⟩ | ⟨hs, hc, rfl⟩ |
      ⟨i, u, rest, hw, hc, rfl⟩ | ⟨i, hw, hc, hcl', rfl⟩ | ⟨i, u, hw, rfl⟩ |
      ⟨i, ms, rest, hw, rfl⟩ | ⟨i, hw, rfl⟩
  · simp only [stepsLeft, hs, List.map_cons, List.sum_cons, List.map_append, List.sum_append,
      List.map_nil, List.sum_nil]
    omega
  · simp only [stepsLeft, hc]
    simp
    omega
  · have hS := sum_map_set (workerCost fetch re mode) p.workers i .idle (.fetching u) hw
    simp only [workerCost] at hS
    simp only [stepsLeft, hc, List.map_cons, List.sum_cons]
    omega
  · have hS := sum_map_set (workerCost fetch re mode) p.workers i .idle .done hw
    simp only [workerCost] at hS
    simp only [stepsLeft]
    omega
  · have hS := sum_map_set (workerCost fetch re mode) p.workers i (.fetching u)
      (.busy (sectionsOf fetch re mode u)) hw
    simp only [workerCost] at hS
    simp only [stepsLeft]
    omega
  · have hS := sum_map_set (workerCost fetch re mode) p.workers i (.busy (ms :: rest))
      (.busy rest) hw
    simp only [workerCost, List.length_cons] at hS
    simp only [stepsLeft]
    omega
  · have hS := sum_map_set (workerCost fetch re mode) p.workers i (.busy []) .idle hw
    simp only [workerCost, List.length_nil] at hS
    simp only [stepsLeft]
    omega

theorem stepsLeft_exec {fetch : Str → Fetch} {re : Regexp} {mode : Str} :
    ∀ (sched : List Thread) (p p' : Pool), exec fetch re mode p sched = some p' →
      stepsLeft fetch re mode p = stepsLeft fetch re mode p' + sched.length
  | [], p, p', h => by
    simp only [exec, Option.some.injEq] at h
    simp [h]
  | t :: ts, p, p', h => by
    simp only [exec] at h
    cases hs : stepThread fetch re mode p t with
    | none => rw [hs] at h; cases h
    | some p1 =>
      rw [hs] at h
      have h1 := stepsLeft_step hs
      have h2 := stepsLeft_exec ts p1 p' h
      simp only [List.length_cons]
      omega

/-- No reachable state short of the final one is stuck. -/
theorem progress {fetch : Str → Fetch} {re : Regexp} {mode : Str} {urls : List Str} {n : Int}
    {p : Pool} (hI : Inv fetch re mode urls n p) (hf : p.final = false) :
    ∃ t p', stepThread fetch re mode p t = some p' := by
  cases hts : p.toSend with
  | cons u rest =>
    have hlen : p.chan.length < p.cap := by
      have := congrArg List.length hI.queue
      rw [hts] at this
      simp only [List.length_append, List.length_cons] at this
      rw [hI.cap]; omega
    refine ⟨.main, ?_⟩
    simp only [stepThread, stepMain, hts, if_pos hlen]
    exact ⟨_, rfl⟩
  | nil =>
    cases hcl : p.closed with
    | false =>
      refine ⟨.main, ?_⟩
      simp only [stepThread, stepMain, hts, hcl]
      exact ⟨_, rfl⟩
    | true =>
      have hnot : ¬ ∀ w ∈ p.workers, w = .done := fun hall =>
        by rw [(final_iff p).mpr ⟨hts, hcl, hall⟩] at hf; cases hf
      push_neg at hnot
      obtain ⟨w, hw, hne⟩ := hnot
      obtain ⟨i, hi⟩ := List.getElem?_of_mem hw
      refine ⟨.worker i, ?_⟩
      simp only [stepThread, stepWorker, hi]
      cases w with
      | idle =>
        cases hch : p.chan with
        | nil => simp [hcl]
        | cons u rest => simp
      | fetching u => simp
      | busy pending =>
        cases pending with
        | nil => simp
        | cons ms rest => simp
      | done => exact absurd rfl hne

/-- Every reachable state can be run to the state in which `wg.Wait()` returns. -/
theorem exists_run {fetch : Str → Fetch} {re : Regexp} {mode : Str} {urls : List Str} {n : Int} :
    ∀ (k : Nat) (p : Pool), stepsLeft fetch re mode p = k → Inv fetch re mode urls n p →
      ∃ sched p', exec fetch re mode p sched = some p' ∧ p'.final = true
  | k, p, hk, hI => by
    cases hf : p.final with
    | true => exact ⟨[], p, rfl, hf⟩
    | false =>
      obtain ⟨t, p1, hs⟩ := progress hI hf
      have h1 := stepsLeft_step hs
      obtain ⟨sched, p', he, hf'⟩ :=
        exists_run (stepsLeft fetch re mode p1) p1 rfl (inv_step hI hs)
      exact ⟨t :: sched, p', by simp only [exec, hs, he], hf'⟩
termination_by k => k
decreasing_by omega

theorem exec_append {fetch : Str → Fetch} {re : Regexp} {mode : Str} :
    ∀ (s1 s2 : List Thread) (p p1 : Pool), exec fetch re mode p s1 = some p1 →
      exec fetch re mode p (s1 ++ s2) = exec fetch re mode p1 s2
  | [], s2, p, p1, h => by
    simp only [exec, Option.some.injEq] at h
    rw [List.nil_append, h]
  | t :: ts, s2, p, p1, h => by
    simp only [exec] at h
    simp only [List.cons_append, exec]
    cases hs : stepThread fetch re mode p t with
    | none => rw [hs] at h; cases h
    | some q =>
      rw [hs] at h
      exact exec_append ts s2 q p1 h

/-- A run of `main` that reaches `writeResults` went through a complete run of the pool. -/
theorem main_handed {cfg : Config} {env : Env} {sched : List Thread} {out : Outcome}
    {urls : List Str} {re : Regexp}
    (hread : env.readLines cfg.urlsFile = some urls) (hre : subdomainRegex cfg.domain = some re)
    (hd : cfg.domain ≠ [])
    (hm : cfg.mode = modeRB ∨ cfg.mode = modeRH ∨ cfg.mode = modeBoth)
    (h : main cfg env sched = some out) :
    ∃ p, exec env.fetch re cfg.mode (Pool.init urls cfg.workers) sched = some p
      ∧ p.final = true
      ∧ out = ⟨if writeResults env p.results cfg.outputFile then .complete else .writeFailed,
                true, p.workers.length, p.calls, p.bar, some p.results⟩ := by
  have hm' : ¬ (cfg.mode ≠ modeRB ∧ cfg.mode ≠ modeRH ∧ cfg.mode ≠ modeBoth) := by tauto
  simp only [main, if_neg hd, if_neg hm', hread, hre] at h
  cases he : exec env.fetch re cfg.mode (Pool.init urls cfg.workers) sched with
  | none => rw [he] at h; cases h
  | some p =>
    rw [he] at h
    cases hf : p.final with
    | false => simp [hf] at h
    | true =>
      simp only [hf, if_true, Option.some.injEq] at h
      exact ⟨p, rfl, hf, h.symm⟩

/-- A complete run of the pool is a run of `main`. -/
theorem main_of_exec {cfg : Config} {env : Env} {sched : List Thread}
    {urls : List Str} {re : Regexp} {p : Pool}
    (hread : env.readLines cfg.urlsFile = some urls) (hre : subdomainRegex cfg.domain = some re)
    (hd : cfg.domain ≠ [])
    (hm : cfg.mode = modeRB ∨ cfg.mode = modeRH ∨ cfg.mode = modeBoth)
    (he : exec env.fetch re cfg.mode (Pool.init urls cfg.workers) sched = some p)
    (hf : p.final = true) :
    main cfg env sched =
      some ⟨if writeResults env p.results cfg.outputFile then .complete else .writeFailed,
                true, p.workers.length, p.calls, p.bar, some p.results⟩ := by
  have hm' : ¬ (cfg.mode ≠ modeRB ∧ cfg.mode ≠ modeRH ∧ cfg.mode ≠ modeBoth) := by tauto
  simp only [main, if_neg hd, if_neg hm', hread, hre, he, hf, if_true]

/-- A run of `main` that hands a result set over passed every check before the pool. -/
theorem main_preflight {cfg : Config} {env : Env} {sched : List Thread} {out : Outcome}
    {R : Finset Str} (h : main cfg env sched = some out) (hR : out.handed = some R) :
    cfg.domain ≠ [] ∧ (cfg.mode = modeRB ∨ cfg.mode = modeRH ∨ cfg.mode = modeBoth)
      ∧ ∃ urls re, env.readLines cfg.urlsFile = some urls
          ∧ subdomainRegex cfg.domain = some re := by
  unfold main at h
  split at h
  · simp only [Option.some.injEq] at h; subst h; cases hR
  · rename_i hd
    split at h
    · simp only [Option.some.injEq] at h; subst h; cases hR
    · rename_i hm
      refine ⟨hd, by tauto, ?_⟩
      split at h
      · simp only [Option.some.injEq] at h; subst h; cases hR
      · rename_i urls hread
        split at h
        · simp only [Option.some.injEq] at h; subst h; cases hR
        · rename_i re hre
          exact ⟨urls, re, hread, hre⟩

/-- C1. Whatever the worker count (at least one), the mode and the interleaving of the
goroutines, the result set `main` hands to `writeResults` after `wg.Wait` is the union, over
the URLs whose fetch returned a response, of the matches extracted from that response under
the mode; hence it is the same for any two worker counts (such as 1 and 8) on the same
responses. -/
theorem main_hands_union_of_extractions (cfg : Config) (env : Env) (sched : List Thread)
    (out : Outcome) (R : Finset Str) (hN : 1 ≤ cfg.workers)
    (hrun : main cfg env sched = some out) (hR : out.handed = some R) :
    ∃ re urls, subdomainRegex cfg.domain = some re ∧ env.readLines cfg.urlsFile = some urls
      ∧ (∀ x, x ∈ R ↔ ∃ url ∈ urls, ∃ resp,
            env.fetch url = .response resp ∧ x ∈ extracted re resp cfg.mode)
      ∧ (∀ (n' : Int) (sched' : List Thread) (out' : Outcome) (R' : Finset Str), 1 ≤ n' →
            main { cfg with workers := n' } env sched' = some out' →
            out'.handed = some R' → R' = R) := by
  obtain ⟨hd, hm, urls, re, hread, hre⟩ := main_preflight hrun hR
  obtain ⟨p, he, hf, hout⟩ := main_handed hread hre hd hm hrun
  have hres := (final_facts (inv_reachable he) hf hN).1
  have hRp : R = expectedResults env.fetch re cfg.mode urls := by
    rw [hout] at hR
    simp only [Option.some.injEq] at hR
    rw [← hR, hres]
  refine ⟨re, urls, hre, hread, ?_, ?_⟩
  · intro x
    rw [hRp, mem_expected_iff]
  · intro n' sched' out' R' hn' hrun' hR'
    have hrun2 : main { cfg with workers := n' } env sched' = some out' := hrun'
    obtain ⟨p', he', hf', hout'⟩ :=
      @main_handed { cfg with workers := n' } env sched' out' urls re hread hre hd hm hrun2
    have hres' := (final_facts (inv_reachable he') hf' hn').1
    rw [hout'] at hR'
    simp only [Option.some.injEq] at hR'
    rw [← hR', hres', hRp]

/-- C7. When the fetch of a URL of the list fails (request construction or transport error)
and there is at least one worker, the run still completes under every schedule (no schedule
is longer than a fixed bound, no unfinished state is stuck, every partial run extends to a
complete run of `main`); at the end the progress counter equals the number of URLs,
`processURL` has been called once for each URL of the list, every match extracted from a
response is in the result set, and every member of the result set comes from the response
of a URL other than the failed one. -/
theorem run_survives_failed_fetch (cfg : Config) (env : Env) (urls : List Str) (re : Regexp)
    (bad : Str) (hN : 1 ≤ cfg.workers) (hd : cfg.domain ≠ [])
    (hm : cfg.mode = modeRB ∨ cfg.mode = modeRH ∨ cfg.mode = modeBoth)
    (hread : env.readLines cfg.urlsFile = some urls)
    (hre : subdomainRegex cfg.domain = some re) (hbad : bad ∈ urls)
    (hfail : env.fetch bad = .requestError ∨ env.fetch bad = .transportError) :
    (∀ sched p, exec env.fetch re cfg.mode (Pool.init urls cfg.workers) sched = some p →
        sched.length ≤ stepsLeft env.fetch re cfg.mode (Pool.init urls cfg.workers)
        ∧ (p.final = false → ∃ t p', stepThread env.fetch re cfg.mode p t = some p')
        ∧ ∃ sched' out, main cfg env (sched ++ sched') = some out)
    ∧ (∀ sched out, main cfg env sched = some out →
        out.bar = urls.length ∧ out.calls = urls
        ∧ ∃ R, out.handed = some R
          ∧ (∀ url ∈ urls, ∀ resp, env.fetch url = .response resp →
                extracted re resp cfg.mode ⊆ R)
          ∧ (∀ x ∈ R, ∃ url ∈ urls, url ≠ bad ∧ ∃ resp,
                env.fetch url = .response resp ∧ x ∈ extracted re resp cfg.mode)) := by
  constructor
  · intro sched p he
    have hI := inv_reachable he
    refine ⟨?_, fun hf => progress hI hf, ?_⟩
    · have := stepsLeft_exec sched _ p he
      omega
    · obtain ⟨sched', p', he', hf'⟩ := exists_run _ p rfl hI
      have hfull : exec env.fetch re cfg.mode (Pool.init urls cfg.workers) (sched ++ sched')
          = some p' := by rw [exec_append sched sched' _ p he, he']
      exact ⟨sched', _, main_of_exec hread hre hd hm hfull hf'⟩
  · intro sched out hrun
    obtain ⟨p, he, hf, hout⟩ := main_handed hread hre hd hm hrun
    obtain ⟨hres, hbar, hcalls⟩ := final_facts (inv_reachable he) hf hN
    subst hout
    refine ⟨hbar, hcalls, p.results, rfl, ?_, ?_⟩
    · intro url hurl resp hresp x hx
      rw [hres, mem_expected_iff]
      exact ⟨url, hurl, resp, hresp, hx⟩
    · intro x hx
      rw [hres, mem_expected_iff] at hx
      obtain ⟨url, hurl, resp, hresp, hx⟩ := hx
      refine ⟨url, hurl, ?_, resp, hresp, hx⟩
      rintro rfl
      rcases hfail with h | h <;> rw [h] at hresp <;> cases hresp

/-- C8. With a mode other than `rb`, `rh` and `both`, `main` ends with a configuration error
(exit status 1) before the URL source is read, before any goroutine is started and before
`processURL` runs for any URL, whatever the environment and the schedule; with one of the
three values it does not end with the invalid-mode error. -/
theorem invalid_mode_rejected_before_pipeline (cfg : Config) (env : Env)
    (sched : List Thread) :
    ((cfg.mode ≠ modeRB ∧ cfg.mode ≠ modeRH ∧ cfg.mode ≠ modeBoth) →
        ∃ out, main cfg env sched = some out
          ∧ (out.exit = .invalidMode ∨ out.exit = .domainRequired)
          ∧ (cfg.domain ≠ [] → out.exit = .invalidMode)
          ∧ out.readSource = false ∧ out.spawned = 0 ∧ out.calls = [] ∧ out.handed = none)
    ∧ ((cfg.mode = modeRB ∨ cfg.mode = modeRH ∨ cfg.mode = modeBoth) →
        ∀ out, main cfg env sched = some out → out.exit ≠ .invalidMode) := by
  constructor
  · intro hbad
    by_cases hd : cfg.domain = []
    · exact ⟨⟨.domainRequired, false, 0, [], 0, none⟩, by simp only [main, if_pos hd],
        Or.inr rfl, fun h => absurd hd h, rfl, rfl, rfl, rfl⟩
    · exact ⟨⟨.invalidMode, false, 0, [], 0, none⟩, by simp only [main, if_neg hd, if_pos hbad],
        Or.inl rfl, fun _ => rfl, rfl, rfl, rfl, rfl⟩
  · intro hok out hrun
    have hm' : ¬ (cfg.mode ≠ modeRB ∧ cfg.mode ≠ modeRH ∧ cfg.mode ≠ modeBoth) := by tauto
    by_cases hd : cfg.domain = []
    · simp only [main, if_pos hd, Option.some.injEq] at hrun
      subst hrun
      simp
    · simp only [main, if_neg hd, if_neg hm'] at hrun
      cases hr : env.readLines cfg.urlsFile with
      | none =>
        simp only [hr, Option.some.injEq] at hrun
        subst hrun
        simp
      | some urls =>
        cases hc : subdomainRegex cfg.domain with
        | none =>
          simp only [hr, hc, Option.some.injEq] at hrun
          subst hrun
          simp
        | some re =>
          obtain ⟨p, -, -, hout⟩ := main_handed hr hc hd hok (by simpa [main, hd, hm'] using hrun)
          subst hout
          dsimp only
          split <;> simp

/-- C9 (as amended). For a URL whose fetch returns a response, the last operation `processURL`
performs on the body is `Close`, in every mode. Under `rb` and `both` exactly one `io.ReadAll`
precedes it, which reads all the bytes the stream delivers and reaches EOF unless the read
fails; under any other mode (`rh`) the body is closed without having been read. -/
theorem body_closed_read_only_when_scanned (resp : Response) (re : Regexp)
    (results : Finset Str) (bar : Nat) (mode : Str) :
    (processURL (.response resp) re results bar mode).bodyOps.getLast? = some .close
    ∧ ((mode = modeRB ∨ mode = modeBoth) →
        (processURL (.response resp) re results bar mode).bodyOps
          = [.readAll resp.body.data.length (!resp.body.fails), .close])
    ∧ (¬ (mode = modeRB ∨ mode = modeBoth) →
        (processURL (.response resp) re results bar mode).bodyOps = [.close]) := by
  by_cases h : mode = modeRB ∨ mode = modeBoth
  · simp [processURL, h, extractFromBodyOps]
  · simp [processURL, h]

/-- C9, counterexample: under mode `rh` a response with the one-byte body `x` is closed by
`processURL` without any read having been performed on it. -/
theorem body_not_read_under_rh :
    (processURL (.response ⟨[], ⟨[120], false⟩⟩) .emptyMatch ∅ 0 modeRH).bodyOps = [.close]
    ∧ ¬ ∃ n eof, BodyOp.readAll n eof
        ∈ (processURL (.response ⟨[], ⟨[120], false⟩⟩) .emptyMatch ∅ 0 modeRH).bodyOps := by
  have h : (processURL (.response ⟨[], ⟨[120], false⟩⟩) .emptyMatch ∅ 0 modeRH).bodyOps
      = [.close] := by decide
  refine ⟨h, ?_⟩
  rw [h]
  simp

/-! ## unicode/utf8: what a decoded rune says about the bytes -/

theorem not_invalid {r w : Nat} (h : (RuneError, 1) = (r, w)) (hr : r ≠ RuneError ∨ w ≠ 1) :
    False := by
  simp only [Prod.mk.injEq] at h
  rcases hr with h1 | h1
  · exact h1 h.1.symm
  · exact h1 h.2.symm

/-- The shapes of a successful decode: one to four bytes in the ranges Go accepts. -/
theorem decodeRune_cases {s : Str} {r w : Nat} (h : decodeRune s = (r, w)) (hw : w ≠ 0)
    (hr : r ≠ RuneError ∨ w ≠ 1) :
    (∃ t, s = r :: t ∧ r < 0x80 ∧ w = 1)
    ∨ (∃ s0 s1 t, s = s0 :: s1 :: t ∧ 0xC2 ≤ s0 ∧ s0 < 0xE0 ∧ 0x80 ≤ s1 ∧ s1 ≤ 0xBF
        ∧ r = (s0 % 32) * 64 + s1 % 64 ∧ w = 2)
    ∨ (∃ s0 s1 s2 t, s = s0 :: s1 :: s2 :: t ∧ 0xE0 ≤ s0 ∧ s0 < 0xF0
        ∧ acceptLo s0 ≤ s1 ∧ s1 ≤ acceptHi s0 ∧ 0x80 ≤ s2 ∧ s2 ≤ 0xBF
        ∧ r = (s0 % 16) * 4096 + (s1 % 64) * 64 + s2 % 64 ∧ w = 3)
    ∨ (∃ s0 s1 s2 s3 t, s = s0 :: s1 :: s2 :: s3 :: t ∧ 0xF0 ≤ s0 ∧ s0 < 0xF5
        ∧ acceptLo s0 ≤ s1 ∧ s1 ≤ acceptHi s0 ∧ 0x80 ≤ s2 ∧ s2 ≤ 0xBF ∧ 0x80 ≤ s3 ∧ s3 ≤ 0xBF
        ∧ r = (s0 % 8) * 262144 + (s1 % 64) * 4096 + (s2 % 64) * 64 + s3 % 64 ∧ w = 4) := by
  cases s with
  | nil =>
    simp only [decodeRune, Prod.mk.injEq] at h
    exact absurd h.2.symm hw
  | cons s0 t =>
    unfold decodeRune at h
    dsimp only at h
    by_cases h1 : s0 < 0x80
    · rw [if_pos h1] at h
      simp only [Prod.mk.injEq] at h
      obtain ⟨rfl, rfl⟩ := h
      exact Or.inl ⟨t, rfl, h1, rfl⟩
    rw [if_neg h1] at h
    by_cases h2 : s0 < 0xC2
    · rw [if_pos h2] at h
      exact (not_invalid h hr).elim
    rw [if_neg h2] at h
    by_cases h3 : s0 < 0xE0
    · rw [if_pos h3] at h
      cases t with
      | nil => exact (not_invalid h hr).elim
      | cons s1 t =>
        try dsimp only at h
        by_cases c1 : s1 < acceptLo s0 ∨ acceptHi s0 < s1
        · rw [if_pos c1] at h
          exact (not_invalid h hr).elim
        · rw [if_neg c1] at h
          simp only [Prod.mk.injEq] at h
          obtain ⟨rfl, rfl⟩ := h
          have e1 : acceptLo s0 = 0x80 := by unfold acceptLo; split_ifs <;> omega
          have e2 : acceptHi s0 = 0xBF := by unfold acceptHi; split_ifs <;> omega
          rw [e1, e2] at c1
          refine Or.inr (Or.inl ⟨s0, s1, t, rfl, ?_, h3, ?_, ?_, rfl, rfl⟩) <;> omega
    rw [if_neg h3] at h
    by_cases h4 : s0 < 0xF0
    · rw [if_pos h4] at h
      rcases t with _ | ⟨s1, _ | ⟨s2, t⟩⟩
      · exact (not_invalid h hr).elim
      · exact (not_invalid h hr).elim
      · dsimp only at h
        by_cases c1 : s1 < acceptLo s0 ∨ acceptHi s0 < s1
        · rw [if_pos c1] at h
          exact (not_invalid h hr).elim
        rw [if_neg c1] at h
        by_cases c2 : s2 < 0x80 ∨ 0xBF < s2
        · rw [if_pos c2] at h
          exact (not_invalid h hr).elim
        rw [if_neg c2] at h
        simp only [Prod.mk.injEq] at h
        obtain ⟨rfl, rfl⟩ := h
        refine Or.inr (Or.inr (Or.inl ⟨s0, s1, s2, t, rfl, ?_, h4, ?_, ?_, ?_, ?_, rfl, rfl⟩))
          <;> omega
    rw [if_neg h4] at h
    by_cases h5 : s0 < 0xF5
    · rw [if_pos h5] at h
      rcases t with _ | ⟨s1, _ | ⟨s2, _ | ⟨s3, t⟩⟩⟩
      · exact (not_invalid h hr).elim
      · exact (not_invalid h hr).elim
      · exact (not_invalid h hr).elim
      · dsimp only at h
        by_cases c1 : s1 < acceptLo s0 ∨ acceptHi s0 < s1
        · rw [if_pos c1] at h
          exact (not_invalid h hr).elim
        rw [if_neg c1] at h
        by_cases c2 : s2 < 0x80 ∨ 0xBF < s2
        · rw [if_pos c2] at h
          exact (not_invalid h hr).elim
        rw [if_neg c2] at h
        by_cases c3 : s3 < 0x80 ∨ 0xBF < s3
        · rw [if_pos c3] at h
          exact (not_invalid h hr).elim
        rw [if_neg c3] at h
        simp only [Prod.mk.injEq] at h
        obtain ⟨rfl, rfl⟩ := h
        refine Or.inr (Or.inr (Or.inr ⟨s0, s1, s2, s3, t, rfl, ?_, h5, ?_, ?_, ?_, ?_, ?_, ?_,
          rfl, rfl⟩)) <;> omega
    · rw [if_neg h5] at h
      exact (not_invalid h hr).elim

theorem encodeRune_two {s0 s1 : Nat} (h0 : 0xC2 ≤ s0) (h0' : s0 < 0xE0) (h1 : 0x80 ≤ s1)
    (h1' : s1 ≤ 0xBF) : encodeRune ((s0 % 32) * 64 + s1 % 64) = [s0, s1] := by
  unfold encodeRune
  rw [if_neg (by omega), if_pos (by omega)]
  congr 1
  · omega
  · congr 1
    omega

theorem encodeRune_three {s0 s1 s2 : Nat} (h0 : 0xE0 ≤ s0) (h0' : s0 < 0xF0)
    (h1 : acceptLo s0 ≤ s1) (h1' : s1 ≤ acceptHi s0) (h2 : 0x80 ≤ s2) (h2' : s2 ≤ 0xBF) :
    encodeRune ((s0 % 16) * 4096 + (s1 % 64) * 64 + s2 % 64) = [s0, s1, s2] := by
  have a1 : 0x80 ≤ s1 := by unfold acceptLo at h1; split_ifs at h1 <;> omega
  have a2 : s1 ≤ 0xBF := by unfold acceptHi at h1'; split_ifs at h1' <;> omega
  have a3 : s0 = 0xE0 → 0xA0 ≤ s1 := by
    intro h; unfold acceptLo at h1; rw [if_pos h] at h1; exact h1
  have a4 : s0 = 0xED → s1 ≤ 0x9F := by
    intro h; unfold acceptHi at h1'; rw [if_pos h] at h1'; exact h1'
  unfold encodeRune
  rw [if_neg (by omega), if_neg (by omega), if_neg (by omega), if_pos (by omega)]
  congr 1
  · omega
  · congr 1
    · omega
    · congr 1
      omega

theorem encodeRune_four {s0 s1 s2 s3 : Nat} (h0 : 0xF0 ≤ s0) (h0' : s0 < 0xF5)
    (h1 : acceptLo s0 ≤ s1) (h1' : s1 ≤ acceptHi s0) (h2 : 0x80 ≤ s2) (h2' : s2 ≤ 0xBF)
    (h3 : 0x80 ≤ s3) (h3' : s3 ≤ 0xBF) :
    encodeRune ((s0 % 8) * 262144 + (s1 % 64) * 4096 + (s2 % 64) * 64 + s3 % 64)
      = [s0, s1, s2, s3] := by
  have a1 : 0x80 ≤ s1 := by unfold acceptLo at h1; split_ifs at h1 <;> omega
  have a2 : s1 ≤ 0xBF := by unfold acceptHi at h1'; split_ifs at h1' <;> omega
  have a3 : s0 = 0xF0 → 0x90 ≤ s1 := by
    intro h
    unfold acceptLo at h1
    rw [if_neg (by omega), if_pos h] at h1
    exact h1
  have a4 : s0 = 0xF4 → s1 ≤ 0x8F := by
    intro h
    unfold acceptHi at h1'
    rw [if_neg (by omega), if_pos h] at h1'
    exact h1'
  unfold encodeRune
  rw [if_neg (by omega), if_neg (by omega), if_neg (by omega), if_neg (by omega)]
  congr 1
  · omega
  · congr 1
    · omega
    · congr 1
      · omega
      · congr 1
        omega

/-- A successful decode read exactly the encoding of the rune it returns; an ASCII rune is
one byte, any other is made of bytes of 0x80 and above. -/
theorem decodeRune_encode {s : Str} {r w : Nat} (h : decodeRune s = (r, w)) (hw : w ≠ 0)
    (hr : r ≠ RuneError ∨ w ≠ 1) :
    s = encodeRune r ++ s.drop w ∧ (encodeRune r).length = w
      ∧ (r < 0x80 → encodeRune r = [r]) ∧ (0x80 ≤ r → ∀ b ∈ encodeRune r, 0x80 ≤ b) := by
  rcases decodeRune_cases h hw hr with ⟨t, rfl, hlt, rfl⟩ |
    ⟨s0, s1, t, rfl, h0, h0', h1, h1', rfl, rfl⟩ |
    ⟨s0, s1, s2, t, rfl, h0, h0', h1, h1', h2, h2', rfl, rfl⟩ |
    ⟨s0, s1, s2, s3, t, rfl, h0, h0', h1, h1', h2, h2', h3, h3', rfl, rfl⟩
  · have e : encodeRune r = [r] := by unfold encodeRune; rw [if_pos hlt]
    rw [e]
    exact ⟨rfl, rfl, fun _ => rfl, fun hge => absurd hlt (by omega)⟩
  · rw [encodeRune_two h0 h0' h1 h1']
    refine ⟨rfl, rfl, fun hlt => absurd hlt (by omega), fun _ b hb => ?_⟩
    simp only [List.mem_cons, List.mem_singleton, List.not_mem_nil, or_false] at hb
    rcases hb with rfl | rfl <;> omega
  · have a1 : 0x80 ≤ s1 := by unfold acceptLo at h1; split_ifs at h1 <;> omega
    rw [encodeRune_three h0 h0' h1 h1' h2 h2']
    refine ⟨rfl, rfl, fun hlt => ?_, fun _ b hb => ?_⟩
    · have a3 : s0 = 0xE0 → 0xA0 ≤ s1 := by
        intro h; unfold acceptLo at h1; rw [if_pos h] at h1; exact h1
      have a2 : s1 ≤ 0xBF := by unfold acceptHi at h1'; split_ifs at h1' <;> omega
      have m0 : s0 % 16 = s0 - 224 := by omega
      have m1 : s1 % 64 = s1 - 128 := by omega
      rw [m0, m1] at hlt
      omega
    · simp only [List.mem_cons, List.mem_singleton, List.not_mem_nil, or_false] at hb
      rcases hb with rfl | rfl | rfl <;> omega
  · have a1 : 0x80 ≤ s1 := by unfold acceptLo at h1; split_ifs at h1 <;> omega
    rw [encodeRune_four h0 h0' h1 h1' h2 h2' h3 h3']
    refine ⟨rfl, rfl, fun hlt => ?_, fun _ b hb => ?_⟩
    · have a3 : s0 = 0xF0 → 0x90 ≤ s1 := by
        intro h
        unfold acceptLo at h1
        rw [if_neg (by omega), if_pos h] at h1
        exact h1
      have a2 : s1 ≤ 0xBF := by unfold acceptHi at h1'; split_ifs at h1' <;> omega
      have m0 : s0 % 8 = s0 - 240 := by omega
      have m1 : s1 % 64 = s1 - 128 := by omega
      rw [m0, m1] at hlt
      omega
    · simp only [List.mem_cons, List.mem_singleton, List.not_mem_nil, or_false] at hb
      rcases hb with rfl | rfl | rfl | rfl <;> omega

theorem decodeRune_width {s : Str} {r w : Nat} (h : decodeRune s = (r, w)) (hs : s ≠ []) :
    1 ≤ w ∧ w ≤ s.length := by
  by_cases hv : r ≠ RuneError ∨ w ≠ 1
  · by_cases hw : w = 0
    · subst hw
      cases s with
      | nil => exact absurd rfl hs
      | cons s0 t =>
        exfalso
        unfold decodeRune at h
        dsimp only at h
        split_ifs at h
        all_goals first
          | (simp only [Prod.mk.injEq] at h; omega)
          | (split at h <;> (try split_ifs at h) <;> simp only [Prod.mk.injEq] at h <;> omega)
    · obtain ⟨h1, h2, -, -⟩ := decodeRune_encode h hw hv
      have := congrArg List.length h1
      rw [List.length_append, h2] at this
      omega
  · have hw1 : w = 1 := by
      by_contra hne
      exact hv (Or.inr hne)
    subst hw1
    cases s with
    | nil => exact absurd rfl hs
    | cons s0 t => simp only [List.length_cons]; omega

/-- The step over a rune other than `RuneError` consumed exactly its encoding. -/
theorem step_encode {s : Str} {r w : Nat} (h : step s = some (r, w)) (hr : r ≠ RuneError) :
    s = encodeRune r ++ s.drop w ∧ (encodeRune r).length = w
      ∧ (r < 0x80 → encodeRune r = [r]) := by
  cases s with
  | nil => simp only [step] at h; cases h
  | cons c t =>
    simp only [step] at h
    split_ifs at h with hc
    · simp only [Option.some.injEq, Prod.mk.injEq] at h
      obtain ⟨rfl, rfl⟩ := h
      have e : encodeRune c = [c] := by unfold encodeRune; rw [if_pos hc]
      rw [e]
      exact ⟨rfl, rfl, fun _ => rfl⟩
    · simp only [Option.some.injEq] at h
      have hw := (decodeRune_width h (List.cons_ne_nil _ _)).1
      obtain ⟨h1, h2, h3, -⟩ := decodeRune_encode h (by omega) (Or.inl hr)
      exact ⟨h1, h2, h3⟩

theorem step_width {s : Str} {r w : Nat} (h : step s = some (r, w)) :
    1 ≤ w ∧ w ≤ s.length := by
  cases s with
  | nil => simp only [step] at h; cases h
  | cons c t =>
    simp only [step] at h
    split_ifs at h with hc
    · simp only [Option.some.injEq, Prod.mk.injEq] at h
      obtain ⟨-, rfl⟩ := h
      simp only [List.length_cons]; omega
    · simp only [Option.some.injEq] at h
      exact decodeRune_width h (List.cons_ne_nil _ _)

/-- A rune the parser reads from the pattern is followed by the rest of the pattern. -/
theorem nextRune_encode {s t : Str} {c : Nat} (h : nextRune s = some (c, t)) :
    s = encodeRune c ++ t ∧ (c < 0x80 → encodeRune c = [c])
      ∧ (0x80 ≤ c → ∀ b ∈ encodeRune c, 0x80 ≤ b) := by
  unfold nextRune at h
  cases hd : decodeRune s with
  | mk r w =>
    rw [hd] at h
    dsimp only at h
    split_ifs at h with hbad
    simp only [Option.some.injEq, Prod.mk.injEq] at h
    obtain ⟨rfl, rfl⟩ := h
    have hw : w ≠ 0 := fun h0 => hbad (Or.inr h0)
    have hv : r ≠ RuneError ∨ w ≠ 1 := by
      by_contra hcon
      push_neg at hcon
      exact hbad (Or.inl hcon)
    obtain ⟨h1, -, h3, h4⟩ := decodeRune_encode hd hw hv
    exact ⟨h1, h3, h4⟩

/-! ## Matching: every end the search reports is justified by the language -/

theorem starEnds_sound (f : Str → List Str) (L : Str → Prop)
    (hf : ∀ s e, e ∈ f s → ∃ c, s = c ++ e ∧ L c) :
    ∀ (n : Nat) (s e : Str), e ∈ starEnds f n s →
      ∃ cs : List Str, s = cs.flatten ++ e ∧ ∀ x ∈ cs, L x
  | 0, s, e, h => by
    simp only [starEnds, List.mem_singleton] at h
    exact ⟨[], by simp [h], by simp⟩
  | n + 1, s, e, h => by
    simp only [starEnds, List.mem_append, List.mem_flatMap, List.mem_filter,
      List.mem_singleton] at h
    rcases h with ⟨e1, ⟨he1, -⟩, he⟩ | rfl
    · obtain ⟨c, hc, hL⟩ := hf s e1 he1
      obtain ⟨cs, hcs, hall⟩ := starEnds_sound f L hf n e1 e he
      refine ⟨c :: cs, ?_, ?_⟩
      · rw [hc, hcs]; simp
      · intro x hx
        rcases List.mem_cons.mp hx with rfl | hx
        · exact hL
        · exact hall x hx
    · exact ⟨[], by simp, by simp⟩

theorem step_take {s : Str} {r w : Nat} (h : step s = some (r, w)) :
    s = s.take w ++ s.drop w ∧ (s.take w).length = w := by
  have := step_width h
  refine ⟨(List.take_append_drop w s).symm, ?_⟩
  rw [List.length_take]
  omega

/-- Soundness of the search: whatever remains after a match, the consumed prefix belongs to
the language of the expression. -/
theorem ends_sound : ∀ (re : Regexp) (s e : Str), e ∈ ends re s → ∃ c, s = c ++ e ∧ Lang re c
  | .noMatch, s, e, h => by simp [ends] at h
  | .emptyMatch, s, e, h => by
    simp only [ends, List.mem_singleton] at h
    exact ⟨[], by simp [h], rfl⟩
  | .literal r, s, e, h => by
    simp only [ends] at h
    cases hs : step s with
    | none => rw [hs] at h; simp at h
    | some p =>
      obtain ⟨c, w⟩ := p
      rw [hs] at h
      dsimp only at h
      split_ifs at h with hc
      · simp only [List.mem_singleton] at h
        subst h
        subst hc
        obtain ⟨h1, h2⟩ := step_take hs
        refine ⟨s.take w, h1, s.drop w, ?_⟩
        rw [← h1, h2]
        exact hs
      · simp at h
  | .charClass neg ranges, s, e, h => by
    simp only [ends] at h
    cases hs : step s with
    | none => rw [hs] at h; simp at h
    | some p =>
      obtain ⟨c, w⟩ := p
      rw [hs] at h
      dsimp only at h
      split_ifs at h with hc
      · simp only [List.mem_singleton] at h
        subst h
        obtain ⟨h1, h2⟩ := step_take hs
        refine ⟨s.take w, h1, s.drop w, c, ?_, hc⟩
        rw [← h1, h2]
        exact hs
      · simp at h
  | .anyCharNotNL, s, e, h => by
    simp only [ends] at h
    cases hs : step s with
    | none => rw [hs] at h; simp at h
    | some p =>
      obtain ⟨c, w⟩ := p
      rw [hs] at h
      dsimp only at h
      split_ifs at h with hc
      · simp only [List.mem_singleton] at h
        subst h
        obtain ⟨h1, h2⟩ := step_take hs
        refine ⟨s.take w, h1, s.drop w, c, ?_, hc⟩
        rw [← h1, h2]
        exact hs
      · simp at h
  | .capture sub, s, e, h => by
    simp only [ends] at h
    exact ends_sound sub s e h
  | .star sub, s, e, h => by
    simp only [ends] at h
    obtain ⟨cs, hcs, hall⟩ :=
      starEnds_sound (ends sub) (Lang sub) (fun s e he => ends_sound sub s e he) _ s e h
    exact ⟨cs.flatten, hcs, cs, rfl, hall⟩
  | .plus sub, s, e, h => by
    simp only [ends, List.mem_flatMap] at h
    obtain ⟨e1, he1, he⟩ := h
    obtain ⟨c, hc, hL⟩ := ends_sound sub s e1 he1
    obtain ⟨cs, hcs, hall⟩ :=
      starEnds_sound (ends sub) (Lang sub) (fun s e he => ends_sound sub s e he) _ e1 e he
    refine ⟨c ++ cs.flatten, ?_, c :: cs, List.cons_ne_nil _ _, by simp, ?_⟩
    · rw [hc, hcs]; simp
    · intro x hx
      rcases List.mem_cons.mp hx with rfl | hx
      · exact hL
      · exact hall x hx
  | .quest sub, s, e, h => by
    simp only [ends, List.mem_append, List.mem_singleton] at h
    rcases h with h | rfl
    · obtain ⟨c, hc, hL⟩ := ends_sound sub s e h
      exact ⟨c, hc, Or.inr hL⟩
    · exact ⟨[], by simp, Or.inl rfl⟩
  | .concat a b, s, e, h => by
    simp only [ends, List.mem_flatMap] at h
    obtain ⟨e1, he1, he⟩ := h
    obtain ⟨c1, hc1, hL1⟩ := ends_sound a s e1 he1
    obtain ⟨c2, hc2, hL2⟩ := ends_sound b e1 e he
    exact ⟨c1 ++ c2, by rw [hc1, hc2]; simp, c1, c2, rfl, hL1, hL2⟩
  | .alternate a b, s, e, h => by
    simp only [ends, List.mem_append] at h
    rcases h with h | h
    · obtain ⟨c, hc, hL⟩ := ends_sound a s e h
      exact ⟨c, hc, Or.inl hL⟩
    · obtain ⟨c, hc, hL⟩ := ends_sound b s e h
      exact ⟨c, hc, Or.inr hL⟩

theorem drop_take_of_drop {s c e : Str} {p : Nat} (h : s.drop p = c ++ e) :
    (s.take (s.length - e.length)).drop p = c := by
  have hlen := congrArg List.length h
  simp only [List.length_drop, List.length_append] at hlen
  have hs : s = s.take p ++ (c ++ e) := by rw [← h, List.take_append_drop]
  by_cases hp : p ≤ s.length
  · have hl : (s.take p).length = p := by rw [List.length_take]; omega
    obtain ⟨a, ha, hal⟩ : ∃ a, s = a ++ (c ++ e) ∧ a.length = p := ⟨s.take p, hs, hl⟩
    subst ha
    have hk : (a ++ (c ++ e)).length - e.length = (a ++ c).length := by
      simp only [List.length_append]; omega
    rw [hk, ← List.append_assoc, List.take_left' rfl]
    exact List.drop_left' hal
  · have hce : c.length = 0 := by omega
    have : c = [] := List.length_eq_zero.mp hce
    subst this
    rw [List.drop_eq_nil_of_le]
    rw [List.length_take]
    omega

/-- What one search reports is a match at its start offset. -/
theorem doExecuteLoop_sound (re : Regexp) (s : Str) :
    ∀ (n pos m0 m1 : Nat), doExecuteLoop re s n pos = some (m0, m1) →
      ∃ c e, s.drop m0 = c ++ e ∧ m1 = s.length - e.length ∧ Lang re c
  | 0, pos, m0, m1, h => by simp [doExecuteLoop] at h
  | n + 1, pos, m0, m1, h => by
    simp only [doExecuteLoop] at h
    cases hh : (ends re (s.drop pos)).head? with
    | some e =>
      rw [hh] at h
      simp only [Option.some.injEq, Prod.mk.injEq] at h
      obtain ⟨rfl, rfl⟩ := h
      obtain ⟨c, hc, hL⟩ := ends_sound re _ e (List.mem_of_mem_head? hh)
      exact ⟨c, e, hc, rfl, hL⟩
    | none =>
      rw [hh] at h
      dsimp only at h
      cases hs : step (s.drop pos) with
      | none => rw [hs] at h; cases h
      | some p =>
        rw [hs] at h
        exact doExecuteLoop_sound re s n _ m0 m1 h

theorem allMatchesLoop_sound (re : Regexp) (s : Str) (n : Nat) :
    ∀ (k pos i : Nat) (prev : Option Nat) (m : Nat × Nat),
      m ∈ allMatchesLoop re s n k pos i prev → ∃ p, doExecute re s p = some m
  | 0, pos, i, prev, m, h => by simp [allMatchesLoop] at h
  | k + 1, pos, i, prev, m, h => by
    simp only [allMatchesLoop] at h
    split_ifs at h with hc
    · cases hd : doExecute re s pos with
      | none => rw [hd] at h; simp at h
      | some mm =>
        obtain ⟨m0, m1⟩ := mm
        rw [hd] at h
        dsimp only at h
        split_ifs at h with h1 h2
        · exact allMatchesLoop_sound re s n k _ _ _ m h
        · rcases List.mem_cons.mp h with rfl | h
          · exact ⟨pos, hd⟩
          · exact allMatchesLoop_sound re s n k _ _ _ m h
        · rcases List.mem_cons.mp h with rfl | h
          · exact ⟨pos, hd⟩
          · exact allMatchesLoop_sound re s n k _ _ _ m h
    · simp at h

/-- Every string `FindAllString` returns is a contiguous piece of the text that belongs to
the language of the expression. -/
theorem findAllString_sound (re : Regexp) (s m : Str) (h : m ∈ findAllString re s) :
    m <:+: s ∧ Lang re m := by
  simp only [findAllString, List.mem_map] at h
  obtain ⟨⟨m0, m1⟩, hmem, rfl⟩ := h
  obtain ⟨p, hp⟩ := allMatchesLoop_sound re s _ _ _ _ _ _ hmem
  obtain ⟨c, e, hc, rfl, hL⟩ := doExecuteLoop_sound re s _ _ _ _ hp
  dsimp only
  rw [drop_take_of_drop hc]
  refine ⟨?_, hL⟩
  refine ⟨s.take m0, e, ?_⟩
  rw [List.append_assoc, ← hc, List.take_append_drop]

/-! ## The language of the compiled pattern -/

theorem lang_literal {r : Nat} {c : Str} (h : Lang (.literal r) c) (hr : r ≠ RuneError) :
    c = encodeRune r := by
  obtain ⟨e, he⟩ := h
  obtain ⟨h1, h2, -⟩ := step_encode he hr
  have hd : (c ++ e).drop c.length = e := List.drop_left' rfl
  rw [hd] at h1
  exact (List.append_inj h1 h2.symm).1

theorem inClass_label_lt {r : Nat}
    (h : inClass false [(97, 122), (65, 90), (48, 57), (45, 45)] r = true) : r < 0x80 := by
  simp only [inClass, List.any_cons, List.any_nil, Bool.or_false, bne_iff_ne, ne_eq,
    Bool.or_eq_true, decide_eq_true_eq, Bool.not_eq_false] at h
  omega

theorem lang_labelClass {c : Str}
    (h : Lang (.charClass false [(97, 122), (65, 90), (48, 57), (45, 45)]) c) :
    ∃ b, c = [b] ∧ isLabelByte b = true := by
  obtain ⟨e, r, he, hin⟩ := h
  have hlt := inClass_label_lt hin
  have hr : r ≠ RuneError := by unfold RuneError; omega
  obtain ⟨h1, h2, h3⟩ := step_encode he hr
  have hd : (c ++ e).drop c.length = e := List.drop_left' rfl
  rw [hd] at h1
  have hc : c = encodeRune r := (List.append_inj h1 h2.symm).1
  rw [h3 hlt] at hc
  refine ⟨r, hc, ?_⟩
  simp only [inClass, List.any_cons, List.any_nil, Bool.or_false, bne_iff_ne, ne_eq,
    Bool.or_eq_true, decide_eq_true_eq, Bool.not_eq_false] at hin
  simp only [isLabelByte, Bool.decide_or, Bool.decide_and, Bool.or_eq_true, Bool.and_eq_true,
    decide_eq_true_eq]
  omega

/-- One segment is a non-empty run of label bytes followed by a dot. -/
theorem lang_segment {x : Str} (h : Lang segmentRe x) :
    ∃ lab : Str, lab ≠ [] ∧ (∀ b ∈ lab, isLabelByte b = true) ∧ x = lab ++ [46] := by
  obtain ⟨c1, c2, rfl, ⟨cs, hne, rfl, hall⟩, hdot⟩ := h
  have h46 : c2 = [46] := by
    have := lang_literal hdot (by unfold RuneError; omega)
    rw [this]
    unfold encodeRune
    rw [if_pos (by omega)]
  subst h46
  refine ⟨cs.flatten, ?_, ?_, rfl⟩
  · cases cs with
    | nil => exact absurd rfl hne
    | cons y ys =>
      obtain ⟨b, rfl, -⟩ := lang_labelClass (hall y (List.mem_cons_self _ _))
      simp
  · intro b hb
    obtain ⟨y, hy, hby⟩ := List.mem_flatten.mp hb
    obtain ⟨b', rfl, hb'⟩ := lang_labelClass (hall y hy)
    rw [List.mem_singleton] at hby
    rw [hby]
    exact hb'

theorem lang_catList_cons {x : Regexp} {xs : List Regexp} {c : Str}
    (h : Lang (catList (x :: xs)) c) :
    ∃ c1 c2, c = c1 ++ c2 ∧ Lang x c1 ∧ Lang (catList xs) c2 := by
  cases xs with
  | nil => exact ⟨c, [], by simp, h, rfl⟩
  | cons y ys => exact h

/-- The literal tail of the pattern consumes the encoding of each rune, in order; a byte
that is not valid UTF-8 stands in for `RuneError` only. -/
theorem lang_literals : ∀ (rs : List Nat) (c : Str), Lang (catList (rs.map .literal)) c →
    RuneError ∉ rs → c = rs.flatMap encodeRune
  | [], c, h, _ => h
  | r :: rs, c, h, hr => by
    rw [List.map_cons] at h
    obtain ⟨c1, c2, rfl, h1, h2⟩ := lang_catList_cons h
    rw [List.flatMap_cons]
    rw [lang_literal h1 (fun hh => hr (hh ▸ List.mem_cons_self _ _))]
    rw [lang_literals rs c2 h2 (fun hh => hr (List.mem_cons_of_mem _ hh))]

/-- A member of the language of the compiled pattern is a non-empty sequence of `label.`
segments followed by a member of the language of the literal tail. -/
theorem lang_pattern {rs : List Nat} {m : Str} (h : Lang (patternRe rs) m) :
    ∃ (labels : List Str) (tail : Str), labels ≠ []
      ∧ (∀ lab ∈ labels, lab ≠ [] ∧ ∀ b ∈ lab, isLabelByte b = true)
      ∧ m = (labels.flatMap fun lab => lab ++ [46]) ++ tail
      ∧ Lang (catList (rs.map .literal)) tail := by
  obtain ⟨c1, c2, rfl, ⟨cs, hne, rfl, hall⟩, h2⟩ := lang_catList_cons h
  have key : ∀ (cs : List Str), (∀ x ∈ cs, Lang segmentRe x) →
      ∃ labels : List Str, labels.length = cs.length
        ∧ (∀ lab ∈ labels, lab ≠ [] ∧ ∀ b ∈ lab, isLabelByte b = true)
        ∧ cs.flatten = labels.flatMap fun lab => lab ++ [46] := by
    intro cs
    induction cs with
    | nil => intro _; exact ⟨[], rfl, by simp, rfl⟩
    | cons x xs ih =>
      intro hx
      obtain ⟨lab, hl1, hl2, rfl⟩ := lang_segment (hx x (List.mem_cons_self _ _))
      obtain ⟨labels, hlen, hlab, hfl⟩ := ih (fun y hy => hx y (List.mem_cons_of_mem _ hy))
      refine ⟨lab :: labels, by simp [hlen], ?_, ?_⟩
      · intro l hl
        rcases List.mem_cons.mp hl with rfl | hl
        · exact ⟨hl1, hl2⟩
        · exact hlab l hl
      · simp only [List.flatten_cons, List.flatMap_cons, hfl]
  obtain ⟨labels, hlen, hlab, hfl⟩ := key cs hall
  refine ⟨labels, c2, ?_, hlab, by rw [hfl], h2⟩
  intro hnil
  rw [hnil] at hlen
  exact hne (List.length_eq_zero.mp hlen.symm)

/-! ## Parsing the pattern of `main` -/

/-- The constant half of the pattern parses to the repeated segment, whatever follows it
other than a `?`. -/
theorem parseLoop_prefix (n : Nat) (rest : Str) (h : rest.head? ≠ some 63) :
    parseLoop (n + 6) [] false (patternPrefix ++ rest)
      = parseLoop n [.re (.plus segmentRe)] true rest := by
  simp [parseLoop, patternPrefix, parseClass, parseClassLoop, parseClassChar, nextRune,
    decodeRune, parseEscape, prepeat, parseRightParen, closeGroup, pconcat, palternate,
    collect, swapVerticalBar, catList, altList, segmentRe, isalnum, RuneError, h]

theorem special_lt {b : Nat} (h : special b = true) : b < 0x80 ∧ isalnum b = false := by
  simp only [special, specialBytes, List.contains_cons, List.contains_nil, Bool.or_false,
    Bool.or_eq_true, beq_iff_eq] at h
  simp only [isalnum]
  rcases h with h | h | h | h | h | h | h | h | h | h | h | h | h | h <;> subst h <;> decide

theorem not_special {b : Nat} (h : special b = false) :
    b ≠ 40 ∧ b ≠ 124 ∧ b ≠ 41 ∧ b ≠ 94 ∧ b ≠ 36 ∧ b ≠ 123 ∧ b ≠ 46 ∧ b ≠ 91 ∧ b ≠ 42 ∧ b ≠ 43
      ∧ b ≠ 63 ∧ b ≠ 92 := by
  refine ⟨?_, ?_, ?_, ?_, ?_, ?_, ?_, ?_, ?_, ?_, ?_, ?_⟩ <;>
    (rintro rfl; revert h; decide)

theorem quoteMeta_cons (b : Nat) (d : Str) :
    quoteMeta (b :: d) = (if special b then [92, b] else [b]) ++ quoteMeta d := by
  simp [quoteMeta]

theorem quoteMeta_head (d : Str) : (quoteMeta d).head? ≠ some 63 := by
  cases d with
  | nil => simp [quoteMeta]
  | cons b d =>
    rw [quoteMeta_cons]
    cases hs : special b with
    | true => simp
    | false =>
      simp only [Bool.false_eq_true, if_false, List.singleton_append, List.head?_cons, ne_eq,
        Option.some.injEq]
      exact (not_special hs).2.2.2.2.2.2.2.2.2.2.1

/-- Bytes of 0x80 and above pass through `QuoteMeta` unchanged. -/
theorem quoteMeta_high : ∀ (enc d t2 : Str), (∀ x ∈ enc, 0x80 ≤ x) →
    quoteMeta d = enc ++ t2 → ∃ d2, d = enc ++ d2 ∧ t2 = quoteMeta d2
  | [], d, t2, _, h => ⟨d, rfl, h.symm⟩
  | x :: enc, d, t2, hx, h => by
    cases d with
    | nil => simp [quoteMeta] at h
    | cons y dd =>
      rw [quoteMeta_cons] at h
      have hx0 := hx x (List.mem_cons_self _ _)
      cases hs : special y with
      | true =>
        rw [hs] at h
        simp only [if_true, List.cons_append, List.cons.injEq] at h
        omega
      | false =>
        rw [hs] at h
        simp only [Bool.false_eq_true, if_false, List.singleton_append, List.cons_append,
          List.cons.injEq] at h
        obtain ⟨rfl, h⟩ := h
        obtain ⟨d2, rfl, rfl⟩ :=
          quoteMeta_high enc dd t2 (fun z hz => hx z (List.mem_cons_of_mem _ hz)) h
        exact ⟨d2, rfl, rfl⟩

theorem encodeRune_ne_nil (r : Nat) : encodeRune r ≠ [] := by
  unfold encodeRune
  split_ifs <;> simp

/-- The quoted domain parses to one literal per rune of the domain, pushed on the stack;
the domain is the concatenation of the encodings of these runes. -/
theorem parseLoop_quoted : ∀ (n : Nat) (d : Str) (st : List Item) (lr : Bool)
    (st' : List Item), parseLoop n st lr (quoteMeta d) = some st' →
    ∃ rs : List Nat, st' = (rs.map fun r => Item.re (.literal r)).reverse ++ st
      ∧ d = rs.flatMap encodeRune
  | 0, d, st, lr, st', h => by simp [parseLoop] at h
  | n + 1, [], st, lr, st', h => by
    simp only [quoteMeta, List.flatMap_nil, parseLoop, Option.some.injEq] at h
    exact ⟨[], by simp [h], rfl⟩
  | n + 1, b :: d, st, lr, st', h => by
    rw [quoteMeta_cons] at h
    cases hs : special b with
    | true =>
      obtain ⟨hlt, hal⟩ := special_lt hs
      have hne : b ≠ RuneError := by unfold RuneError; omega
      have hnr : nextRune (b :: quoteMeta d) = some (b, quoteMeta d) := by
        simp [nextRune, decodeRune, hlt, hne]
      simp only [hs, if_true, List.cons_append, List.nil_append, parseLoop, parseEscape,
        List.tail_cons, hnr] at h
      simp [hlt, hal] at h
      obtain ⟨rs, rfl, rfl⟩ := parseLoop_quoted n d _ _ st' h
      refine ⟨b :: rs, by simp, ?_⟩
      simp only [List.flatMap_cons]
      unfold encodeRune
      rw [if_pos hlt]
      rfl
    | false =>
      obtain ⟨n1, n2, n3, n4, n5, n6, n7, n8, n9, n10, n11, n12⟩ := not_special hs
      simp only [hs, Bool.false_eq_true, if_false, List.singleton_append, parseLoop, n1, n2, n3,
        n4, n5, n6, n7, n8, n9, n10, n11, n12, or_self] at h
      cases hnr : nextRune (b :: quoteMeta d) with
      | none => rw [hnr] at h; cases h
      | some p =>
        obtain ⟨c, t2⟩ := p
        rw [hnr] at h
        dsimp only at h
        obtain ⟨he, hlow, hhigh⟩ := nextRune_encode hnr
        have hd2 : ∃ d2, b :: d = encodeRune c ++ d2 ∧ t2 = quoteMeta d2 := by
          by_cases hc : c < 0x80
          · rw [hlow hc] at he ⊢
            simp only [List.singleton_append, List.cons.injEq] at he
            exact ⟨d, by rw [he.1]; rfl, he.2.symm⟩
          · have hb := hhigh (by omega)
            cases henc : encodeRune c with
            | nil => exact absurd henc (encodeRune_ne_nil c)
            | cons x enc =>
              rw [henc] at he hb
              simp only [List.cons_append, List.cons.injEq] at he
              obtain ⟨rfl, hq⟩ := he
              obtain ⟨d2, rfl, rfl⟩ :=
                quoteMeta_high enc d t2 (fun z hz => hb z (List.mem_cons_of_mem _ hz)) hq
              exact ⟨d2, rfl, rfl⟩
        obtain ⟨d2, hd, rfl⟩ := hd2
        obtain ⟨rs, rfl, rfl⟩ := parseLoop_quoted n d2 _ _ st' h
        exact ⟨c :: rs, by simp, by rw [hd]; rfl⟩

theorem collect_res : ∀ (xs : List Regexp), collect (xs.map Item.re) = (xs.reverse, [])
  | [] => rfl
  | x :: xs => by
    simp only [List.map_cons, collect, collect_res xs, List.reverse_cons]

/-- The expression `main` compiles is the repeated segment followed by the runes of the
domain as literals; the domain is the concatenation of the encodings of these runes. -/
theorem subdomainRegex_shape {d : Str} {re : Regexp} (h : subdomainRegex d = some re) :
    ∃ rs : List Nat, re = patternRe rs ∧ d = rs.flatMap encodeRune := by
  unfold subdomainRegex parse at h
  have hlen : (patternPrefix ++ quoteMeta d).length + 1 = ((quoteMeta d).length + 13) + 6 := by
    simp only [List.length_append, patternPrefix, List.length_cons, List.length_nil]
    omega
  rw [hlen, parseLoop_prefix _ _ (quoteMeta_head d)] at h
  cases hp : parseLoop ((quoteMeta d).length + 13) [.re (.plus segmentRe)] true (quoteMeta d) with
  | none => rw [hp] at h; cases h
  | some st =>
    rw [hp] at h
    dsimp only at h
    obtain ⟨rs, rfl, hd⟩ := parseLoop_quoted _ d _ _ st hp
    have hst : (rs.map fun r => Item.re (.literal r)).reverse ++ [Item.re (.plus segmentRe)]
        = ((Regexp.plus segmentRe :: rs.map .literal).reverse).map Item.re := by
      simp [List.map_reverse]
    rw [hst] at h
    have hcl : closeGroup (((Regexp.plus segmentRe :: rs.map .literal).reverse).map Item.re)
        = [.re (patternRe rs)] := by
      simp only [closeGroup, pconcat, collect_res, List.reverse_reverse, swapVerticalBar,
        palternate, collect, List.nil_append, altList, patternRe]
    rw [hcl] at h
    simp only [Option.some.injEq] at h
    exact ⟨rs, h.symm, hd⟩

/-! ## The pattern compiles for every valid UTF-8 domain -/

/-- Decoding the encoding of a scalar value gives the value back. -/
theorem decodeRune_encodeRune (r : Nat) (t : Str) (hv : validRune r = true) :
    decodeRune (encodeRune r ++ t) = (r, (encodeRune r).length) := by
  simp only [validRune, Bool.and_eq_true, decide_eq_true_eq, Bool.not_eq_true',
    Bool.and_eq_false_iff, decide_eq_false_iff_not] at hv
  obtain ⟨hmax, hsur⟩ := hv
  unfold encodeRune
  by_cases h1 : r < 0x80
  · rw [if_pos h1]
    simp only [List.singleton_append, decodeRune, if_pos h1, List.length_singleton]
  rw [if_neg h1]
  by_cases h2 : r < 0x800
  · rw [if_pos h2]
    have a0 : ¬ (0xC0 + r / 64 < 0x80) := by omega
    have a1 : ¬ (0xC0 + r / 64 < 0xC2) := by omega
    have a2 : 0xC0 + r / 64 < 0xE0 := by omega
    have lo : acceptLo (0xC0 + r / 64) = 0x80 := by
      unfold acceptLo; rw [if_neg (by omega), if_neg (by omega)]
    have hi : acceptHi (0xC0 + r / 64) = 0xBF := by
      unfold acceptHi; rw [if_neg (by omega), if_neg (by omega)]
    simp only [List.cons_append, List.nil_append, decodeRune, if_neg a0, if_neg a1, if_pos a2,
      lo, hi]
    rw [if_neg (by omega)]
    simp only [List.length_cons, List.length_nil, Prod.mk.injEq, and_true]
    omega
  rw [if_neg h2, if_neg (by omega)]
  by_cases h3 : r < 0x10000
  · rw [if_pos h3]
    have a0 : ¬ (0xE0 + r / 4096 < 0x80) := by omega
    have a1 : ¬ (0xE0 + r / 4096 < 0xC2) := by omega
    have a2 : ¬ (0xE0 + r / 4096 < 0xE0) := by omega
    have a3 : 0xE0 + r / 4096 < 0xF0 := by omega
    have lo : acceptLo (0xE0 + r / 4096) ≤ 0x80 + (r / 64) % 64 := by
      unfold acceptLo
      split_ifs <;> omega
    have hi : 0x80 + (r / 64) % 64 ≤ acceptHi (0xE0 + r / 4096) := by
      unfold acceptHi
      split_ifs <;> omega
    simp only [List.cons_append, List.nil_append, decodeRune, if_neg a0, if_neg a1, if_neg a2,
      if_pos a3]
    rw [if_neg (by omega), if_neg (by omega)]
    simp only [List.length_cons, List.length_nil, Prod.mk.injEq, and_true]
    omega
  · rw [if_neg h3]
    have a0 : ¬ (0xF0 + r / 262144 < 0x80) := by omega
    have a1 : ¬ (0xF0 + r / 262144 < 0xC2) := by omega
    have a2 : ¬ (0xF0 + r / 262144 < 0xE0) := by omega
    have a3 : ¬ (0xF0 + r / 262144 < 0xF0) := by omega
    have a4 : 0xF0 + r / 262144 < 0xF5 := by omega
    have lo : acceptLo (0xF0 + r / 262144) ≤ 0x80 + (r / 4096) % 64 := by
      unfold acceptLo
      split_ifs <;> omega
    have hi : 0x80 + (r / 4096) % 64 ≤ acceptHi (0xF0 + r / 262144) := by
      unfold acceptHi
      split_ifs <;> omega
    simp only [List.cons_append, List.nil_append, decodeRune, if_neg a0, if_neg a1, if_neg a2,
      if_neg a3, if_pos a4]
    rw [if_neg (by omega), if_neg (by omega), if_neg (by omega)]
    simp only [List.length_cons, List.length_nil, Prod.mk.injEq, and_true]
    omega

theorem nextRune_encodeRune (r : Nat) (t : Str) (hv : validRune r = true) :
    nextRune (encodeRune r ++ t) = some (r, t) := by
  unfold nextRune
  rw [decodeRune_encodeRune r t hv]
  dsimp only
  have hne : (encodeRune r).length ≠ 0 := fun h =>
    encodeRune_ne_nil r (List.length_eq_zero.mp h)
  have h3 : r = RuneError → (encodeRune r).length ≠ 1 := by
    rintro rfl
    decide
  rw [if_neg (by
    rintro (⟨h, h'⟩ | h)
    · exact h3 h h'
    · exact hne h)]
  rw [List.drop_left' rfl]

theorem encodeRune_high (r : Nat) (hv : validRune r = true) (hr : 0x80 ≤ r) :
    ∀ b ∈ encodeRune r, 0x80 ≤ b := by
  have hd := decodeRune_encodeRune r [] hv
  have hne : (encodeRune r).length ≠ 0 := fun h =>
    encodeRune_ne_nil r (List.length_eq_zero.mp h)
  have h3 : r ≠ RuneError ∨ (encodeRune r).length ≠ 1 := by
    by_cases h : r = RuneError
    · right; subst h; decide
    · exact Or.inl h
  exact (decodeRune_encode hd hne h3).2.2.2 hr

theorem quoteMeta_append_high : ∀ (enc d : Str), (∀ b ∈ enc, 0x80 ≤ b) →
    quoteMeta (enc ++ d) = enc ++ quoteMeta d
  | [], d, _ => rfl
  | x :: enc, d, h => by
    have hx := h x (List.mem_cons_self _ _)
    have hs : special x = false := by
      cases hsp : special x with
      | false => rfl
      | true => have := (special_lt hsp).1; omega
    rw [List.cons_append, quoteMeta_cons, hs,
      quoteMeta_append_high enc d (fun b hb => h b (List.mem_cons_of_mem _ hb))]
    rfl

/-- The quoted encoding of valid runes parses to one literal per rune. -/
theorem parseLoop_runes : ∀ (rs : List Nat) (n : Nat) (st : List Item) (lr : Bool),
    (∀ r ∈ rs, validRune r = true) → rs.length ≤ n →
    parseLoop (n + 1) st lr (quoteMeta (rs.flatMap encodeRune))
      = some ((rs.map fun r => Item.re (.literal r)).reverse ++ st)
  | [], n, st, lr, _, _ => by simp [quoteMeta, parseLoop]
  | r :: rs, 0, st, lr, _, hn => by simp at hn
  | r :: rs, n + 1, st, lr, hv, hn => by
    have hvr := hv r (List.mem_cons_self _ _)
    have ih := fun st' lr' => parseLoop_runes rs n st' lr'
      (fun x hx => hv x (List.mem_cons_of_mem _ hx)) (by simpa using hn)
    have hfin : (rs.map fun r => Item.re (.literal r)).reverse ++ (Item.re (.literal r) :: st)
        = ((r :: rs).map fun r => Item.re (.literal r)).reverse ++ st := by simp
    rw [List.flatMap_cons]
    generalize n + 1 = m at ih ⊢
    by_cases hlt : r < 0x80
    · have he : encodeRune r = [r] := by unfold encodeRune; rw [if_pos hlt]
      have hne : r ≠ RuneError := by unfold RuneError; omega
      have hnr : ∀ q : Str, nextRune (r :: q) = some (r, q) := by
        intro q
        simp [nextRune, decodeRune, hlt, hne]
      rw [he, List.singleton_append, quoteMeta_cons]
      cases hs : special r with
      | true =>
        obtain ⟨-, hal⟩ := special_lt hs
        simp only [if_true, List.cons_append, List.nil_append, parseLoop, parseEscape,
          List.tail_cons, hnr]
        simp [hlt, hal]
        rw [ih, hfin]
      | false =>
        obtain ⟨n1, n2, n3, n4, n5, n6, n7, n8, n9, n10, n11, n12⟩ := not_special hs
        simp only [Bool.false_eq_true, if_false, List.singleton_append, parseLoop, n1, n2, n3,
          n4, n5, n6, n7, n8, n9, n10, n11, n12, or_self, hnr]
        rw [ih, hfin]
    · have hhigh := encodeRune_high r hvr (by omega)
      rw [quoteMeta_append_high _ _ hhigh]
      have hnr := nextRune_encodeRune r (quoteMeta (rs.flatMap encodeRune)) hvr
      cases henc : encodeRune r with
      | nil => exact absurd henc (encodeRune_ne_nil r)
      | cons x enc =>
        rw [henc] at hnr hhigh
        have hx := hhigh x (List.mem_cons_self _ _)
        have hs : special x = false := by
          cases hsp : special x with
          | false => rfl
          | true => have := (special_lt hsp).1; omega
        obtain ⟨n1, n2, n3, n4, n5, n6, n7, n8, n9, n10, n11, n12⟩ := not_special hs
        rw [List.cons_append] at hnr ⊢
        simp only [parseLoop, n1, n2, n3, n4, n5, n6, n7, n8, n9, n10, n11, n12, or_self, hnr,
          if_false]
        rw [ih, hfin]

theorem length_le_quoteMeta : ∀ (d : Str), d.length ≤ (quoteMeta d).length
  | [] => by simp [quoteMeta]
  | b :: d => by
    have := length_le_quoteMeta d
    rw [quoteMeta_cons]
    split_ifs <;> simp only [List.length_append, List.length_cons, List.length_nil] <;> omega

theorem length_le_flatMap_encodeRune : ∀ (rs : List Nat),
    rs.length ≤ (rs.flatMap encodeRune).length
  | [] => by simp
  | r :: rs => by
    have := length_le_flatMap_encodeRune rs
    have h1 : 0 < (encodeRune r).length := List.length_pos.mpr (encodeRune_ne_nil r)
    simp only [List.flatMap_cons, List.length_append, List.length_cons]
    omega

/-- `MustCompile` succeeds on the pattern of every domain that is valid UTF-8, whatever
metacharacters it contains, and yields the repeated segment followed by the domain as
literals. -/
theorem subdomainRegex_of_runes (rs : List Nat) (hv : ∀ r ∈ rs, validRune r = true) :
    subdomainRegex (rs.flatMap encodeRune) = some (patternRe rs) := by
  unfold subdomainRegex parse
  have hlen : (patternPrefix ++ quoteMeta (rs.flatMap encodeRune)).length + 1
      = ((quoteMeta (rs.flatMap encodeRune)).length + 13) + 6 := by
    simp only [List.length_append, patternPrefix, List.length_cons, List.length_nil]
    omega
  have hfuel : rs.length ≤ (quoteMeta (rs.flatMap encodeRune)).length + 12 := by
    have h1 := length_le_quoteMeta (rs.flatMap encodeRune)
    have h2 := length_le_flatMap_encodeRune rs
    omega
  rw [hlen, parseLoop_prefix _ _ (quoteMeta_head _), parseLoop_runes rs _ _ _ hv hfuel]
  dsimp only
  have hst : (rs.map fun r => Item.re (.literal r)).reverse ++ [Item.re (.plus segmentRe)]
      = ((Regexp.plus segmentRe :: rs.map .literal).reverse).map Item.re := by
    simp [List.map_reverse]
  rw [hst]
  simp only [closeGroup, pconcat, collect_res, List.reverse_reverse, swapVerticalBar,
    palternate, collect, List.nil_append, altList, patternRe]

/-! ## The matcher: the claims -/

theorem runeError_infix {rs : List Nat} (h : RuneError ∈ rs) :
    [0xEF, 0xBF, 0xBD] <:+: rs.flatMap encodeRune := by
  obtain ⟨l1, l2, rfl⟩ := List.append_of_mem h
  refine ⟨l1.flatMap encodeRune, l2.flatMap encodeRune, ?_⟩
  have e : encodeRune RuneError = [0xEF, 0xBF, 0xBD] := by decide
  simp only [List.flatMap_append, List.flatMap_cons, e, List.append_assoc]

/-- Every string the matcher returns is a piece of the text made of one or more `label.`
segments followed by the domain, when the domain does not contain U+FFFD. -/
theorem findAllString_form {d s m : Str} {re : Regexp} (hre : subdomainRegex d = some re)
    (hfffd : ¬ [0xEF, 0xBF, 0xBD] <:+: d) (hm : m ∈ findAllString re s) :
    m <:+: s ∧ ∃ labels : List Str, labels ≠ []
      ∧ (∀ lab ∈ labels, lab ≠ [] ∧ ∀ b ∈ lab, isLabelByte b = true)
      ∧ m = (labels.flatMap fun lab => lab ++ [46]) ++ d := by
  obtain ⟨rs, rfl, hd⟩ := subdomainRegex_shape hre
  have hno : RuneError ∉ rs := fun hin => hfffd (hd ▸ runeError_infix hin)
  obtain ⟨hsub, hL⟩ := findAllString_sound _ s m hm
  obtain ⟨labels, tail, hne, hlab, rfl, htail⟩ := lang_pattern hL
  refine ⟨hsub, labels, hne, hlab, ?_⟩
  rw [lang_literals rs tail htail hno, ← hd]

/-- C3 (as amended). For every target domain `d` the pattern compiles for (whatever regex
metacharacters it contains) that does not contain the bytes EF BF BD of U+FFFD, and every
text `s`, every string returned by `FindAllString` ends with the exact byte string `d`:
the domain is matched literally. -/
theorem match_ends_with_domain (d s : Str) (re : Regexp)
    (hre : subdomainRegex d = some re) (hfffd : ¬ [0xEF, 0xBF, 0xBD] <:+: d) :
    ∀ m ∈ findAllString re s, d <:+ m := by
  intro m hm
  obtain ⟨-, labels, -, -, rfl⟩ := findAllString_form hre hfffd hm
  exact List.suffix_append _ _

/-- C4 (as amended). For every target domain `d` the pattern compiles for that does not
contain the bytes EF BF BD of U+FFFD, and every text `s`, every string returned by
`FindAllString` is a contiguous substring of `s` of the form `L1.L2. ... Lk.d` with `k ≥ 1`,
each label a non-empty run of bytes from `[a-zA-Z0-9-]` followed by a dot, then `d` byte for
byte; the bare domain is never returned. -/
theorem match_is_labels_then_domain (d s : Str) (re : Regexp)
    (hre : subdomainRegex d = some re) (hfffd : ¬ [0xEF, 0xBF, 0xBD] <:+: d) :
    ∀ m ∈ findAllString re s,
      m <:+: s
      ∧ (∃ labels : List Str, labels ≠ []
          ∧ (∀ lab ∈ labels, lab ≠ [] ∧ ∀ b ∈ lab, isLabelByte b = true)
          ∧ m = (labels.flatMap fun lab => lab ++ [46]) ++ d)
      ∧ m ≠ d := by
  intro m hm
  obtain ⟨hsub, labels, hne, hlab, rfl⟩ := findAllString_form hre hfffd hm
  refine ⟨hsub, ⟨labels, hne, hlab, rfl⟩, ?_⟩
  intro heq
  have hlen := congrArg List.length heq
  cases labels with
  | nil => exact hne rfl
  | cons lab rest =>
    simp only [List.flatMap_cons, List.length_append, List.length_cons, List.length_nil] at hlen
    omega

/-- C3, counterexample: with the domain U+FFFD (bytes EF BF BD) the text `a.` followed by the
invalid byte FF is returned as a match, and it does not end with the domain. -/
theorem match_ends_with_domain_fails :
    (subdomainRegex [0xEF, 0xBF, 0xBD]).map (fun re => findAllString re [97, 46, 0xFF])
        = some [[97, 46, 0xFF]]
    ∧ ¬ ([0xEF, 0xBF, 0xBD] <:+ [97, 46, 0xFF]) := by
  decide

/-- C4, counterexample: with the domain `x` followed by U+FFFD, the text `a.x` followed by
the invalid byte 80 is returned as a match, and it is not a sequence of labels followed by
the domain. -/
theorem match_is_labels_then_domain_fails :
    (subdomainRegex [120, 0xEF, 0xBF, 0xBD]).map (fun re => findAllString re [97, 46, 120, 0x80])
        = some [[97, 46, 120, 0x80]]
    ∧ ¬ ∃ labels : List Str,
        [97, 46, 120, 0x80] = (labels.flatMap fun lab => lab ++ [46]) ++ [120, 0xEF, 0xBF, 0xBD] := by
  refine ⟨by decide, ?_⟩
  rintro ⟨labels, h⟩
  have hs : [120, 0xEF, 0xBF, 0xBD] <:+ [97, 46, 120, 0x80] := ⟨_, h.symm⟩
  revert hs
  decide

/-! ## The iteration bounds are never reached -/

/-- Greedy iteration with a bound of at least the length of the text does not depend on
the bound. -/
theorem starEnds_stable (f : Str → List Str) :
    ∀ (n : Nat) (s : Str), s.length ≤ n → starEnds f (n + 1) s = starEnds f n s
  | 0, s, h => by
    have hs : s = [] := List.length_eq_zero.mp (by omega)
    subst hs
    simp [starEnds]
  | n + 1, s, h => by
    rw [starEnds, starEnds]
    congr 1
    apply List.flatMap_congr
    intro e he
    have hlt : e.length < s.length := by
      simpa using (List.mem_filter.mp he).2
    exact starEnds_stable f n e (by omega)

/-- The unanchored search with the bound `len(s) + 1 - pos` that `doExecute` passes, or
any larger one, gives the same answer. -/
theorem doExecuteLoop_stable (re : Regexp) (s : Str) :
    ∀ (n pos : Nat), pos ≤ s.length → s.length + 1 ≤ n + pos →
      doExecuteLoop re s (n + 1) pos = doExecuteLoop re s n pos
  | 0, pos, h1, h2 => by omega
  | n + 1, pos, h1, h2 => by
    rw [doExecuteLoop, doExecuteLoop]
    cases (ends re (s.drop pos)).head? with
    | some e => rfl
    | none =>
      dsimp only
      cases hs : step (s.drop pos) with
      | none => rfl
      | some p =>
        obtain ⟨r, w⟩ := p
        dsimp only
        have hw := step_width hs
        rw [List.length_drop] at hw
        exact doExecuteLoop_stable re s n (pos + w) (by omega) (by omega)

/-- What `doExecute` returns lies inside the text, at or after the start offset. -/
theorem doExecuteLoop_bounds (re : Regexp) (s : Str) :
    ∀ (n pos m0 m1 : Nat), pos ≤ s.length → doExecuteLoop re s n pos = some (m0, m1) →
      pos ≤ m0 ∧ m0 ≤ m1 ∧ m1 ≤ s.length
  | 0, pos, m0, m1, _, h => by simp [doExecuteLoop] at h
  | n + 1, pos, m0, m1, hp, h => by
    simp only [doExecuteLoop] at h
    cases hh : (ends re (s.drop pos)).head? with
    | some e =>
      rw [hh] at h
      simp only [Option.some.injEq, Prod.mk.injEq] at h
      obtain ⟨rfl, rfl⟩ := h
      obtain ⟨c, hc, -⟩ := ends_sound re _ e (List.mem_of_mem_head? hh)
      have hl := congrArg List.length hc
      simp only [List.length_drop, List.length_append] at hl
      omega
    | none =>
      rw [hh] at h
      dsimp only at h
      cases hs : step (s.drop pos) with
      | none => rw [hs] at h; cases h
      | some p =>
        obtain ⟨r, w⟩ := p
        rw [hs] at h
        dsimp only at h
        have hw := step_width hs
        rw [List.length_drop] at hw
        have := doExecuteLoop_bounds re s n (pos + w) m0 m1 (by omega) h
        omega

/-- The loop of `allMatches` with the bound `len(s) + 2 - pos`, or any larger one, gives
the same list: every iteration moves `pos` forward. -/
theorem allMatchesLoop_stable (re : Regexp) (s : Str) (n : Nat) :
    ∀ (k pos i : Nat) (prev : Option Nat), s.length + 2 ≤ k + pos →
      allMatchesLoop re s n (k + 1) pos i prev = allMatchesLoop re s n k pos i prev
  | 0, pos, i, prev, h => by
    rw [allMatchesLoop, allMatchesLoop]
    rw [if_neg (by omega)]
  | k + 1, pos, i, prev, h => by
    rw [allMatchesLoop, allMatchesLoop]
    split_ifs with hc
    · cases hd : doExecute re s pos with
      | none => rfl
      | some mm =>
        obtain ⟨m0, m1⟩ := mm
        dsimp only
        have hb := doExecuteLoop_bounds re s _ pos m0 m1 hc.2 hd
        split_ifs with h1 h2
        · cases hs : step (s.drop pos) with
          | none =>
            dsimp only
            exact allMatchesLoop_stable re s n k (s.length + 1) i (some m1) (by omega)
          | some p =>
            obtain ⟨r, w⟩ := p
            have hw := step_width hs
            rw [List.length_drop] at hw
            dsimp only
            exact allMatchesLoop_stable re s n k (pos + w) i (some m1) (by omega)
        · cases hs : step (s.drop pos) with
          | none =>
            dsimp only
            rw [allMatchesLoop_stable re s n k (s.length + 1) (i + 1) (some m1) (by omega)]
          | some p =>
            obtain ⟨r, w⟩ := p
            have hw := step_width hs
            rw [List.length_drop] at hw
            dsimp only
            rw [allMatchesLoop_stable re s n k (pos + w) (i + 1) (some m1) (by omega)]
        · have hlt : pos < m1 := by omega
          rw [allMatchesLoop_stable re s n k m1 (i + 1) (some m1) (by omega)]
    · rfl

/-! ## Concrete runs -/

theorem subdomainRegex_example : subdomainRegex (str "example.com") = some exampleRe := by
  decide

/-- C6. Target domain `example.com`, mode `both`, two URLs whose responses are (1) the body
`see https://api.example.com/v1 and cdn.example.com` and (2) the header
`Location: www.example.com/redirect`: under every schedule and every positive worker count
the result set handed to `writeResults` is exactly
`api.example.com`, `cdn.example.com`, `www.example.com`. -/
theorem scenario_example_com (cfg : Config) (env : Env) (sched : List Thread) (out : Outcome)
    (u1 u2 : Str) (hdom : cfg.domain = str "example.com") (hmode : cfg.mode = modeBoth)
    (hN : 1 ≤ cfg.workers) (hread : env.readLines cfg.urlsFile = some [u1, u2])
    (h1 : env.fetch u1 = .response scenarioResp1) (h2 : env.fetch u2 = .response scenarioResp2)
    (hrun : main cfg env sched = some out) :
    out.handed
      = some {str "api.example.com", str "cdn.example.com", str "www.example.com"} := by
  have hre : subdomainRegex cfg.domain = some exampleRe := by
    rw [hdom]; exact subdomainRegex_example
  have hd : cfg.domain ≠ [] := by rw [hdom]; decide
  obtain ⟨p, he, hf, hout⟩ :=
    main_handed hread hre hd (Or.inr (Or.inr hmode)) hrun
  have hres := (final_facts (inv_reachable he) hf hN).1
  rw [hout]
  dsimp only
  rw [hres, hmode]
  have o1 : occurrences exampleRe scenarioResp1 modeBoth
      = [str "api.example.com", str "cdn.example.com"] := by decide
  have o2 : occurrences exampleRe scenarioResp2 modeBoth = [str "www.example.com"] := by decide
  simp only [expectedResults, List.foldl_cons, List.foldl_nil, contribution, h1, h2,
    extracted_eq, o1, o2]
  congr 1


/-! ## The theorems applied to concrete inputs -/

/-- The scenario of C6 on a concrete environment, two workers and one interleaving. -/
theorem scenario_example_com_witness :
    ∃ out, main scenarioConfig scenarioEnv scenarioSchedule = some out
      ∧ out.handed
          = some {str "api.example.com", str "cdn.example.com", str "www.example.com"} := by
  obtain ⟨out, h⟩ := Option.isSome_iff_exists.mp
    (show (main scenarioConfig scenarioEnv scenarioSchedule).isSome = true by decide)
  exact ⟨out, h, scenario_example_com scenarioConfig scenarioEnv scenarioSchedule out
    (str "http://a/") (str "http://b/") rfl rfl (by decide) rfl (by decide) (by decide) h⟩

/-- C1 applied to the run of the scenario under `scenarioSchedule`. -/
theorem main_hands_union_of_extractions_witness :
    ∃ out R, 1 ≤ scenarioConfig.workers
      ∧ main scenarioConfig scenarioEnv scenarioSchedule = some out
      ∧ out.handed = some R
      ∧ ∃ re urls, subdomainRegex scenarioConfig.domain = some re
          ∧ scenarioEnv.readLines scenarioConfig.urlsFile = some urls
          ∧ (∀ x, x ∈ R ↔ ∃ url ∈ urls, ∃ resp,
                scenarioEnv.fetch url = .response resp
                  ∧ x ∈ extracted re resp scenarioConfig.mode)
          ∧ (∀ (n' : Int) (sched' : List Thread) (out' : Outcome) (R' : Finset Str), 1 ≤ n' →
                main { scenarioConfig with workers := n' } scenarioEnv sched' = some out' →
                out'.handed = some R' → R' = R) := by
  obtain ⟨R, h⟩ := Option.isSome_iff_exists.mp
    (show ((main scenarioConfig scenarioEnv scenarioSchedule).bind Outcome.handed).isSome
      = true by decide)
  obtain ⟨out, hout, hR⟩ := Option.bind_eq_some.mp h
  exact ⟨out, R, by decide, hout, hR,
    main_hands_union_of_extractions scenarioConfig scenarioEnv scenarioSchedule out R
      (by decide) hout hR⟩

/-- C7 applied to three URLs of which `http://down/` cannot be fetched. -/
theorem run_survives_failed_fetch_witness :
    (∀ sched p, exec failingEnv.fetch exampleRe modeBoth
          (Pool.init [str "http://a/", str "http://down/", str "http://b/"] 2) sched = some p →
        sched.length ≤ stepsLeft failingEnv.fetch exampleRe modeBoth
          (Pool.init [str "http://a/", str "http://down/", str "http://b/"] 2)
        ∧ (p.final = false → ∃ t p', stepThread failingEnv.fetch exampleRe modeBoth p t = some p')
        ∧ ∃ sched' out, main scenarioConfig failingEnv (sched ++ sched') = some out)
    ∧ (∀ sched out, main scenarioConfig failingEnv sched = some out →
        out.bar = 3 ∧ out.calls = [str "http://a/", str "http://down/", str "http://b/"]
        ∧ ∃ R, out.handed = some R
          ∧ (∀ url ∈ [str "http://a/", str "http://down/", str "http://b/"], ∀ resp,
                failingEnv.fetch url = .response resp → extracted exampleRe resp modeBoth ⊆ R)
          ∧ (∀ x ∈ R, ∃ url ∈ [str "http://a/", str "http://down/", str "http://b/"],
                url ≠ str "http://down/" ∧ ∃ resp,
                failingEnv.fetch url = .response resp ∧ x ∈ extracted exampleRe resp modeBoth)) :=
  run_survives_failed_fetch scenarioConfig failingEnv
    [str "http://a/", str "http://down/", str "http://b/"] exampleRe (str "http://down/")
    (by decide) (by decide) (Or.inr (Or.inr rfl)) rfl subdomainRegex_example (by decide)
    (Or.inr (by decide))

/-- C8 applied with the mode `xx` and with the mode `both`. -/
theorem invalid_mode_rejected_witness :
    (∃ out, main { scenarioConfig with mode := str "xx" } scenarioEnv scenarioSchedule = some out
        ∧ (out.exit = .invalidMode ∨ out.exit = .domainRequired)
        ∧ (str "example.com" ≠ [] → out.exit = .invalidMode)
        ∧ out.readSource = false ∧ out.spawned = 0 ∧ out.calls = [] ∧ out.handed = none)
    ∧ (∀ out, main scenarioConfig scenarioEnv scenarioSchedule = some out →
        out.exit ≠ .invalidMode) :=
  ⟨(invalid_mode_rejected_before_pipeline { scenarioConfig with mode := str "xx" } scenarioEnv
      scenarioSchedule).1 (by decide),
   (invalid_mode_rejected_before_pipeline scenarioConfig scenarioEnv scenarioSchedule).2
      (Or.inr (Or.inr rfl))⟩

/-- C9 (as amended) applied to response 1 of the scenario under `both` and under `rh`. -/
theorem body_closed_read_only_when_scanned_witness :
    (processURL (.response scenarioResp1) exampleRe ∅ 0 modeBoth).bodyOps
        = [.readAll 50 true, .close]
    ∧ (processURL (.response scenarioResp1) exampleRe ∅ 0 modeRH).bodyOps = [.close] :=
  ⟨(body_closed_read_only_when_scanned scenarioResp1 exampleRe ∅ 0 modeBoth).2.1
      (Or.inr rfl),
   (body_closed_read_only_when_scanned scenarioResp1 exampleRe ∅ 0 modeRH).2.2 (by decide)⟩

/-- C5 applied to the scenario: a match found in the body only is absent under `rh`, a
match found in a header only is absent under `rb`. -/
theorem processURL_mode_isolation_witness :
    str "api.example.com" ∈ findAllString exampleRe scenarioResp1.body.data
    ∧ str "api.example.com" ∉ (processURL (.response scenarioResp1) exampleRe ∅ 0 modeRH).results
    ∧ str "www.example.com" ∈ headerOccurrences exampleRe scenarioResp2.header
    ∧ str "www.example.com" ∉ (processURL (.response scenarioResp2) exampleRe ∅ 0 modeRB).results :=
  ⟨by decide,
   (processURL_mode_isolation exampleRe scenarioResp1 ∅ 0 (str "api.example.com")
      (Finset.not_mem_empty _)).1 (by decide),
   by decide,
   (processURL_mode_isolation exampleRe scenarioResp2 ∅ 0 (str "www.example.com")
      (Finset.not_mem_empty _)).2 (by decide)⟩

/-- C3 (as amended) applied to the domain `a+b.c`, whose `+` and `.` are matched literally. -/
theorem match_ends_with_domain_witness :
    subdomainRegex (str "a+b.c") = some (patternRe (str "a+b.c"))
    ∧ ¬ [0xEF, 0xBF, 0xBD] <:+: str "a+b.c"
    ∧ findAllString (patternRe (str "a+b.c")) (str "x.a+b.c y.aab.c z.a+bxc") = [str "x.a+b.c"]
    ∧ ∀ m ∈ findAllString (patternRe (str "a+b.c")) (str "x.a+b.c y.aab.c z.a+bxc"),
        str "a+b.c" <:+ m :=
  ⟨by decide, by decide, by decide,
   match_ends_with_domain (str "a+b.c") (str "x.a+b.c y.aab.c z.a+bxc") _ (by decide)
    (by decide)⟩

/-- C4 (as amended) applied to the domain `example.com` on a text holding the bare domain,
the domain after a lone dot, and a real subdomain. -/
theorem match_is_labels_then_domain_witness :
    subdomainRegex (str "example.com") = some exampleRe
    ∧ ¬ [0xEF, 0xBF, 0xBD] <:+: str "example.com"
    ∧ ∀ m ∈ findAllString exampleRe (str "example.com, .example.com, WWW.a-1.example.com."),
        m <:+: str "example.com, .example.com, WWW.a-1.example.com."
        ∧ (∃ labels : List Str, labels ≠ []
            ∧ (∀ lab ∈ labels, lab ≠ [] ∧ ∀ b ∈ lab, isLabelByte b = true)
            ∧ m = (labels.flatMap fun lab => lab ++ [46]) ++ str "example.com")
        ∧ m ≠ str "example.com" :=
  ⟨by decide, by decide,
   match_is_labels_then_domain (str "example.com")
    (str "example.com, .example.com, WWW.a-1.example.com.") exampleRe subdomainRegex_example
    (by decide)⟩

end SankGrap
